import Mathlib

/-!
Verification of the iterative radix-2 FFT kernel of lambdaworks
(src/math/src/fft/fft_iterative.rs) over a shallow embedding.

The two transforms mutate a caller-owned slice in place. We embed the slice
as a `List F` threaded through the recursion; an out-of-bounds index access
(which panics in the source) is embedded as `Except.error st` where `st` is
the buffer as the caller observes it after unwinding, i.e. including every
write made before the panic. A normal return is `Except.ok out`.

Machine integers (`usize`) are embedded as `Nat`; all index arithmetic in
the source is far below overflow for the sizes the spec covers. The one
subtraction in the source, `group_size / 2 - 1` in the RN variant, is only
ever executed with `group_size ≥ 2` on the power-of-two inputs the claims
quantify over, where `Nat` truncated subtraction agrees with `usize`.
-/

namespace LambdaworksFft

variable {F : Type} [Field F]

/-- Embedding of the inner butterfly loop of `in_place_nr_2radix_fft`:
for `i` in `[i0, i0 + c)` perform
`(input[i], input[i+half]) = (input[i] + w*input[i+half], input[i] - w*input[i+half])`
where `half = group_size / 2`. Reads happen before writes, as in the source. -/
def nrButterflies (w : F) (half : Nat) : List F → Nat → Nat → Except (List F) (List F)
  | input, _, 0 => Except.ok input
  | input, i, c+1 =>
    match input.get? i, input.get? (i + half) with
    | some a, some b =>
        nrButterflies w half ((input.set i (a + w * b)).set (i + half) (a - w * b)) (i+1) c
    | _, _ => Except.error input

/-- Embedding of the group loop of `in_place_nr_2radix_fft`: for `group` in
`[g, g + c)`, read `w = twiddles[group]` and run the butterflies of that group,
which start at `first_in_group = group * group_size` and number `group_size / 2`. -/
def nrGroups (tw : List F) (gs : Nat) : List F → Nat → Nat → Except (List F) (List F)
  | input, _, 0 => Except.ok input
  | input, g, c+1 =>
    match tw.get? g with
    | some w =>
        match nrButterflies w (gs / 2) input (g * gs) (gs / 2) with
        | Except.ok input2 => nrGroups tw gs input2 (g+1) c
        | Except.error st => Except.error st
    | none => Except.error input

/-- Embedding of the stage loop of `in_place_nr_2radix_fft`:
while `group_count < input.len()`, run all groups of the stage, then double
`group_count` and halve `group_size`. The fuel argument only bounds the
recursion; it is chosen at the entry point so that it never runs out before
the loop condition fails. -/
def nrLoop (tw : List F) : List F → Nat → Nat → Nat → Except (List F) (List F)
  | input, _, _, 0 => Except.ok input
  | input, gc, gs, fuel+1 =>
    if gc < input.length then
      match nrGroups tw gs input 0 gc with
      | Except.ok input2 => nrLoop tw input2 (2 * gc) (gs / 2) fuel
      | Except.error st => Except.error st
    else Except.ok input

/-- Embedding of `in_place_nr_2radix_fft`: `group_count` starts at 1 and
`group_size` starts at `input.len()`. -/
def in_place_nr_2radix_fft (input : List F) (twiddles : List F) : Except (List F) (List F) :=
  nrLoop twiddles input 1 input.length input.length

/-- Embedding of the inner butterfly loop of `in_place_rn_2radix_fft`:
`i` takes the values `i0, i0 + step, ...` (`c` of them, matching the inclusive
stepped range of the source); each iteration reads `w = twiddles[twIdx]` and
performs the butterfly on `(input[i], input[i + gc])`. -/
def rnButterflies (tw : List F) (twIdx gc step : Nat) : List F → Nat → Nat → Except (List F) (List F)
  | input, _, 0 => Except.ok input
  | input, i, c+1 =>
    match tw.get? twIdx with
    | some w =>
        match input.get? i, input.get? (i + gc) with
        | some a, some b =>
            rnButterflies tw twIdx gc step
              ((input.set i (a + w * b)).set (i + gc) (a - w * b)) (i + step) c
        | _, _ => Except.error input
    | none => Except.error input

/-- Embedding of the group loop of `in_place_rn_2radix_fft`: for `group` in
`[g, g + c)`, the butterflies of the group start at `i = group`, step by
`step_to_next = 2 * group_count` up to `group + step_to_last` inclusive, and
use twiddle index `group * group_size / 2`. -/
def rnGroups (tw : List F) (gc gs : Nat) : List F → Nat → Nat → Except (List F) (List F)
  | input, _, 0 => Except.ok input
  | input, g, c+1 =>
    match rnButterflies tw (g * gs / 2) gc (2 * gc) input g
        ((2 * gc) * (gs / 2 - 1) / (2 * gc) + 1) with
    | Except.ok input2 => rnGroups tw gc gs input2 (g+1) c
    | Except.error st => Except.error st

/-- Embedding of the stage loop of `in_place_rn_2radix_fft`. -/
def rnLoop (tw : List F) : List F → Nat → Nat → Nat → Except (List F) (List F)
  | input, _, _, 0 => Except.ok input
  | input, gc, gs, fuel+1 =>
    if gc < input.length then
      match rnGroups tw gc gs input 0 gc with
      | Except.ok input2 => rnLoop tw input2 (2 * gc) (gs / 2) fuel
      | Except.error st => Except.error st
    else Except.ok input

/-- Embedding of `in_place_rn_2radix_fft`. -/
def in_place_rn_2radix_fft (input : List F) (twiddles : List F) : Except (List F) (List F) :=
  rnLoop twiddles input 1 input.length input.length

/-- Embedding of the test-only reference oracle `dft` from the source:
`output[row] = sum over col of input[col] * twiddles[(row*col) % n]` where
the twiddles are the natural-order powers of the primitive root. The powers
`ω^0, …, ω^(n-1)` stand for `get_powers_of_primitive_root(order, n, Natural)`,
which lives outside the provided sources and is modelled from the spec. -/
def dft (ω : F) (input : List F) : List F :=
  let n := input.length
  let twiddles := (List.range n).map (fun i => ω ^ i)
  (List.range n).map (fun row =>
    ∑ col in Finset.range n, input.getD col 0 * twiddles.getD (row * col % n) 0)

/-- Reversal of the lowest `s` bits of a natural number: the spec's
bit-reversal of an index within `log2 n` bits. -/
def bitRev : Nat → Nat → Nat
  | 0, _ => 0
  | s+1, x => bitRev s (x / 2) + x % 2 * 2 ^ s

/-- Modelled from the spec: the bit-reversal permutation routine
(`in_place_bit_reverse_permute`, outside the provided sources) reorders a
sequence so that indices `i` and `bitRev k i` are swapped, `k = log2 n`;
equivalently the element at position `i` of the result is the element at
position `bitRev k i` of the argument. The bit width `k` is passed
explicitly; the claims instantiate it with `log2` of the length. -/
def bit_reverse_permute (k : Nat) (v : List F) : List F :=
  (List.range v.length).map (fun i => v.getD (bitRev k i) 0)

/-- Modelled from the spec: natural-order twiddles for a domain of size `n`
(`get_twiddles(order, Natural)`, outside the provided sources):
`twiddles[i] = ω^i`, length `n / 2`. -/
def natural_twiddles (ω : F) (n : Nat) : List F :=
  (List.range (n / 2)).map (fun i => ω ^ i)

/-- Modelled from the spec: bit-reversed twiddles for a domain of size `2^k`
(`get_twiddles(order, BitReverse)`, outside the provided sources): position
`j` holds the root power whose exponent is the bit-reversal of `j` within
the `k - 1` bits of the twiddle index space; length `2^(k-1)`. -/
def bitrev_twiddles (ω : F) (k : Nat) : List F :=
  (List.range (2 ^ (k-1))).map (fun j => ω ^ bitRev (k-1) j)

/-- Spec glossary: a primitive `n`-th root of unity is `ω` with `ω^n = 1`
and no smaller positive exponent satisfying this. -/
def is_primitive_root (ω : F) (n : Nat) : Prop :=
  ω ^ n = 1 ∧ ∀ m : Nat, m < n → 0 < m → ω ^ m ≠ 1

/-- Modelled from the spec: evaluation of the polynomial whose coefficient
vector is `coeffs` at the point `x` (the `Polynomial` abstraction is outside
the provided sources). -/
def polynomial_evaluate (coeffs : List F) (x : F) : F :=
  ∑ j in Finset.range coeffs.length, coeffs.getD j 0 * x ^ j

/-- Loop invariant of the NR transform, as a function: the contents of the
buffer after `s` of the `k` stages. Position `p = g * 2^(k-s) + r`
(`g < 2^s` the group index of `p` at stage `s`, `r < 2^(k-s)` its offset)
holds the partial butterfly combination
`sum over t < 2^s of v[r + t * 2^(k-s)] * ω^(bitRev s g * t * 2^(k-s))`. -/
def nrSnapshot (ω : F) (k s : Nat) (v : List F) : List F :=
  (List.range (2 ^ k)).map (fun p =>
    ∑ t in Finset.range (2 ^ s), v.getD (p % 2 ^ (k - s) + t * 2 ^ (k - s)) 0
      * ω ^ (bitRev s (p / 2 ^ (k - s)) * (t * 2 ^ (k - s))))

/-- Loop invariant of the RN transform, as a function: the contents of the
buffer after `s` of the `k` stages. The buffer splits into contiguous blocks
of size `2^s`; the block of position `p` holds the transform of the sub-array
that occupied it at entry, read in bit-reversed order. -/
def rnSnapshot (ω : F) (k s : Nat) (u : List F) : List F :=
  (List.range (2 ^ k)).map (fun p =>
    ∑ t in Finset.range (2 ^ s), u.getD (p / 2 ^ s * 2 ^ s + bitRev s t) 0
      * ω ^ (2 ^ (k - s) * (p % 2 ^ s * t)))

/-! Helper lemmas about list access. -/

lemma get?_eq_some_getD (l : List F) (i : Nat) (h : i < l.length) :
    l.get? i = some (l.getD i 0) := by
  rw [List.getD_eq_get?]
  cases hg : l.get? i with
  | none => exact absurd (List.get?_eq_none.mp hg) (Nat.not_le_of_lt h)
  | some a => rfl

lemma getD_set_self (l : List F) (i : Nat) (x : F) (h : i < l.length) :
    (l.set i x).getD i 0 = x := by
  rw [List.getD_eq_get?, List.get?_set, if_pos rfl, get?_eq_some_getD l i h]
  rfl

lemma getD_set_ne (l : List F) (i p : Nat) (x : F) (h : i ≠ p) :
    (l.set i x).getD p 0 = l.getD p 0 := by
  rw [List.getD_eq_get?, List.get?_set, if_neg h, ← List.getD_eq_get?]

lemma getD_map_range (f : Nat → F) (n p : Nat) :
    (((List.range n).map f).getD p 0) = if p < n then f p else 0 := by
  rw [List.getD_eq_get?, List.get?_map]
  by_cases h : p < n
  · rw [List.get?_range h, if_pos h]
    rfl
  · rw [if_neg h, List.get?_eq_none.mpr]
    · rfl
    · simpa using Nat.le_of_not_lt h

lemma getD_eq_zero_of_le (l : List F) (p : Nat) (h : l.length ≤ p) :
    l.getD p 0 = 0 := by
  rw [List.getD_eq_get?, List.get?_eq_none.mpr h]
  rfl

lemma list_ext_getD (l1 l2 : List F) (hlen : l1.length = l2.length)
    (h : ∀ p, p < l1.length → l1.getD p 0 = l2.getD p 0) : l1 = l2 := by
  apply List.ext_get?
  intro n
  by_cases hn : n < l1.length
  · rw [get?_eq_some_getD l1 n hn, get?_eq_some_getD l2 n (hlen ▸ hn), h n hn]
  · rw [List.get?_eq_none.mpr (Nat.le_of_not_lt hn),
      List.get?_eq_none.mpr (hlen ▸ Nat.le_of_not_lt hn)]

/-! Helper lemmas about sums and powers. -/

lemma sum_range_double (f : Nat → F) (n : Nat) :
    ∑ t in Finset.range (2 * n), f t =
      (∑ t in Finset.range n, f (2 * t)) + ∑ t in Finset.range n, f (2 * t + 1) := by
  induction n with
  | zero => simp
  | succ n ih =>
      have h2 : 2 * (n + 1) = (2 * n + 1) + 1 := by ring
      rw [h2, Finset.sum_range_succ, Finset.sum_range_succ,
        Finset.sum_range_succ (fun t => f (2 * t)), Finset.sum_range_succ (fun t => f (2 * t + 1)),
        ih]
      abel

lemma pow_mod_of_pow_eq_one (ω : F) (n : Nat) (h : ω ^ n = 1) (a : Nat) :
    ω ^ (a % n) = ω ^ a := by
  conv_rhs => rw [← Nat.div_add_mod a n]
  rw [pow_add, pow_mul, h, one_pow, one_mul]

lemma prim_root_pow_half (ω : F) (k : Nat) (hk : 1 ≤ k)
    (h : is_primitive_root ω (2 ^ k)) : ω ^ (2 ^ (k - 1)) = -1 := by
  have hsq : ω ^ (2 ^ (k - 1)) * ω ^ (2 ^ (k - 1)) = 1 := by
    rw [← pow_add]
    have : 2 ^ (k - 1) + 2 ^ (k - 1) = 2 ^ k := by
      have hk' : k - 1 + 1 = k := Nat.succ_pred_eq_of_pos hk
      calc 2 ^ (k - 1) + 2 ^ (k - 1) = 2 ^ (k - 1) * 2 := by ring
        _ = 2 ^ (k - 1 + 1) := by rw [pow_succ]
        _ = 2 ^ k := by rw [hk']
    rw [this, h.1]
  rcases mul_self_eq_one_iff.mp hsq with h1 | h1
  · exact absurd h1 (h.2 (2 ^ (k - 1))
      (Nat.pow_lt_pow_right (by norm_num) (Nat.pred_lt (Nat.one_le_iff_ne_zero.mp hk)))
      (Nat.pos_pow_of_pos _ (by norm_num)))
  · exact h1

/-! Helper lemmas about bit reversal. -/

lemma bitRev_lt (s x : Nat) : bitRev s x < 2 ^ s := by
  induction s generalizing x with
  | zero => simp [bitRev]
  | succ s ih =>
      show bitRev s (x / 2) + x % 2 * 2 ^ s < 2 ^ (s + 1)
      have h1 : bitRev s (x / 2) < 2 ^ s := ih (x / 2)
      have h2 : x % 2 ≤ 1 := Nat.le_of_lt_succ (Nat.mod_lt x (by norm_num))
      have h3 : x % 2 * 2 ^ s ≤ 2 ^ s := by
        calc x % 2 * 2 ^ s ≤ 1 * 2 ^ s := Nat.mul_le_mul_right _ h2
          _ = 2 ^ s := one_mul _
      calc bitRev s (x / 2) + x % 2 * 2 ^ s < 2 ^ s + 2 ^ s + x % 2 * 2 ^ s - x % 2 * 2 ^ s := by
            omega
        _ ≤ 2 ^ s + 2 ^ s := by omega
        _ = 2 ^ (s + 1) := by rw [pow_succ]; ring

lemma bitRev_zero_arg (s : Nat) : bitRev s 0 = 0 := by
  induction s with
  | zero => rfl
  | succ s ih => show bitRev s (0 / 2) + 0 % 2 * 2 ^ s = 0; simpa using ih

lemma bitRev_two_mul (s x : Nat) : bitRev (s + 1) (2 * x) = bitRev s x := by
  show bitRev s (2 * x / 2) + 2 * x % 2 * 2 ^ s = bitRev s x
  rw [Nat.mul_div_cancel_left x (by norm_num : (0:Nat) < 2), Nat.mul_mod_right]
  simp

lemma bitRev_two_mul_add_one (s x : Nat) :
    bitRev (s + 1) (2 * x + 1) = bitRev s x + 2 ^ s := by
  show bitRev s ((2 * x + 1) / 2) + (2 * x + 1) % 2 * 2 ^ s = bitRev s x + 2 ^ s
  have h1 : (2 * x + 1) / 2 = x := by omega
  have h2 : (2 * x + 1) % 2 = 1 := by omega
  rw [h1, h2, one_mul]

lemma bitRev_shift (s m x : Nat) (hx : x < 2 ^ s) :
    bitRev (m + s) x = 2 ^ m * bitRev s x := by
  induction s generalizing x with
  | zero =>
      have : x = 0 := Nat.lt_one_iff.mp hx
      subst this
      rw [bitRev_zero_arg, bitRev_zero_arg, Nat.mul_zero]
  | succ s ih =>
      show bitRev (m + s) (x / 2) + x % 2 * 2 ^ (m + s) = 2 ^ m * bitRev (s + 1) x
      have hx2 : x / 2 < 2 ^ s := by
        rw [pow_succ] at hx
        omega
      rw [ih (x / 2) hx2]
      show 2 ^ m * bitRev s (x / 2) + x % 2 * 2 ^ (m + s)
        = 2 ^ m * (bitRev s (x / 2) + x % 2 * 2 ^ s)
      rw [pow_add]
      ring

lemma bitRev_append_msb (s b c : Nat) (hb : b < 2 ^ s) (hc : c < 2) :
    bitRev (s + 1) (b + c * 2 ^ s) = 2 * bitRev s b + c := by
  induction s generalizing b c with
  | zero =>
      have hb0 : b = 0 := Nat.lt_one_iff.mp hb
      subst hb0
      show bitRev 0 ((0 + c * 2 ^ 0) / 2) + (0 + c * 2 ^ 0) % 2 * 2 ^ 0 = 2 * bitRev 0 0 + c
      simp [bitRev]
      omega
  | succ s ih =>
      show bitRev (s + 1) ((b + c * 2 ^ (s + 1)) / 2) + (b + c * 2 ^ (s + 1)) % 2 * 2 ^ (s + 1)
        = 2 * bitRev (s + 1) b + c
      have hc2 : c * 2 ^ (s + 1) = 2 * (c * 2 ^ s) := by
        rw [pow_succ]
        ring
      have h1 : (b + c * 2 ^ (s + 1)) / 2 = b / 2 + c * 2 ^ s := by
        rw [hc2]
        omega
      have h2 : (b + c * 2 ^ (s + 1)) % 2 = b % 2 := by
        rw [hc2]
        omega
      have hb2 : b / 2 < 2 ^ s := by
        rw [pow_succ] at hb
        omega
      rw [h1, h2, ih (b / 2) c hb2 hc]
      show 2 * bitRev s (b / 2) + c + b % 2 * 2 ^ (s + 1)
        = 2 * (bitRev s (b / 2) + b % 2 * 2 ^ s) + c
      rw [pow_succ]
      ring

lemma bitRev_bitRev (s x : Nat) (hx : x < 2 ^ s) :
    bitRev s (bitRev s x) = x := by
  induction s generalizing x with
  | zero =>
      have : x = 0 := Nat.lt_one_iff.mp hx
      subst this
      rfl
  | succ s ih =>
      have hx2 : x / 2 < 2 ^ s := by
        rw [pow_succ] at hx
        omega
      have hm2 : x % 2 < 2 := Nat.mod_lt x (by norm_num)
      show bitRev (s + 1) (bitRev s (x / 2) + x % 2 * 2 ^ s) = x
      rw [bitRev_append_msb s (bitRev s (x / 2)) (x % 2) (bitRev_lt s (x / 2)) hm2,
        ih (x / 2) hx2]
      omega

/-! Unfolding equations for the loop embeddings. -/

lemma nrButterflies_zero (w : F) (half : Nat) (input : List F) (i : Nat) :
    nrButterflies w half input i 0 = Except.ok input := rfl

lemma nrButterflies_succ (w : F) (half : Nat) (input : List F) (i c : Nat) (a b : F)
    (ha : input.get? i = some a) (hb : input.get? (i + half) = some b) :
    nrButterflies w half input i (c + 1) =
      nrButterflies w half ((input.set i (a + w * b)).set (i + half) (a - w * b)) (i + 1) c := by
  rw [List.get?_eq_getElem?] at ha hb
  simp [nrButterflies, ha, hb]

/-- Pointwise characterization of the NR inner loop: positions `[i, i+c)` get
the butterfly top output, positions `[i+half, i+half+c)` the bottom output,
everything else is untouched; no out-of-bounds error occurs. -/
lemma nrButterflies_char (w : F) (half : Nat) :
    ∀ (c : Nat) (input : List F) (i : Nat), c ≤ half → i + half + c ≤ input.length →
    ∃ out, nrButterflies w half input i c = Except.ok out ∧
      out.length = input.length ∧
      (∀ q, i ≤ q → q < i + c →
        out.getD q 0 = input.getD q 0 + w * input.getD (q + half) 0 ∧
        out.getD (q + half) 0 = input.getD q 0 - w * input.getD (q + half) 0) ∧
      (∀ p, p < i ∨ (i + c ≤ p ∧ p < i + half) ∨ i + half + c ≤ p →
        out.getD p 0 = input.getD p 0) := by
  intro c
  induction c with
  | zero =>
      intro input i _ _
      refine ⟨input, rfl, rfl, ?_, fun p _ => rfl⟩
      intro q hq1 hq2
      omega
  | succ c ih =>
      intro input i hc hlen
      have hhalf : 1 ≤ half := by omega
      have hi : i < input.length := by omega
      have hih : i + half < input.length := by omega
      have ha := get?_eq_some_getD input i hi
      have hb := get?_eq_some_getD input (i + half) hih
      set a := input.getD i 0 with hadef
      set b := input.getD (i + half) 0 with hbdef
      set input2 := (input.set i (a + w * b)).set (i + half) (a - w * b) with h2def
      have hlen2 : input2.length = input.length := by
        rw [h2def, List.length_set, List.length_set]
      obtain ⟨out, hout, holen, hclause, huntouched⟩ :=
        ih input2 (i + 1) (by omega) (by rw [hlen2]; omega)
      have hval2 : ∀ p, p ≠ i → p ≠ i + half → input2.getD p 0 = input.getD p 0 := by
        intro p hp1 hp2
        rw [h2def, getD_set_ne _ _ _ _ (fun h => hp2 h.symm),
          getD_set_ne _ _ _ _ (fun h => hp1 h.symm)]
      have hval2i : input2.getD i 0 = a + w * b := by
        rw [h2def, getD_set_ne _ _ _ _ (by omega), getD_set_self _ _ _ hi]
      have hval2ih : input2.getD (i + half) 0 = a - w * b := by
        rw [h2def, getD_set_self]
        rw [List.length_set]
        exact hih
      refine ⟨out, ?_, holen.trans hlen2, ?_, ?_⟩
      · rw [nrButterflies_succ w half input i c a b ha hb, ← h2def, hout]
      · intro q hq1 hq2
        by_cases hqi : q = i
        · subst hqi
          constructor
          · rw [huntouched q (by omega), hval2i]
          · rw [huntouched (q + half) (by omega), hval2ih]
        · have h1 := hclause q (by omega) (by omega)
          rw [hval2 q (by omega) (by omega), hval2 (q + half) (by omega) (by omega)] at h1
          exact h1
      · intro p hp
        rw [huntouched p (by omega), hval2 p (by omega) (by omega)]

lemma nrGroups_zero (tw : List F) (gs : Nat) (input : List F) (g : Nat) :
    nrGroups tw gs input g 0 = Except.ok input := rfl

lemma nrGroups_succ (tw : List F) (gs : Nat) (input : List F) (g c : Nat) (w : F) (out1 : List F)
    (hw : tw.get? g = some w)
    (hbf : nrButterflies w (gs / 2) input (g * gs) (gs / 2) = Except.ok out1) :
    nrGroups tw gs input g (c + 1) = nrGroups tw gs out1 (g + 1) c := by
  rw [List.get?_eq_getElem?] at hw
  simp [nrGroups, hw, hbf]

/-- Pointwise characterization of the NR group loop for an even group size
`2 * half`: group `g` updates positions `g*(2*half) + j` (top) and
`g*(2*half) + j + half` (bottom) for `j < half`, using the single twiddle
`tw[g]`; positions outside the processed groups are untouched, and no
out-of-bounds error occurs. -/
lemma nrGroups_char (tw : List F) (half : Nat) (hhalf : 0 < half) :
    ∀ (c : Nat) (input : List F) (g0 : Nat),
      g0 + c ≤ tw.length → (g0 + c) * (2 * half) ≤ input.length →
      ∃ out, nrGroups tw (2 * half) input g0 c = Except.ok out ∧
        out.length = input.length ∧
        (∀ g j, g0 ≤ g → g < g0 + c → j < half →
          out.getD (g * (2 * half) + j) 0 =
            input.getD (g * (2 * half) + j) 0
              + tw.getD g 0 * input.getD (g * (2 * half) + j + half) 0 ∧
          out.getD (g * (2 * half) + j + half) 0 =
            input.getD (g * (2 * half) + j) 0
              - tw.getD g 0 * input.getD (g * (2 * half) + j + half) 0) ∧
        (∀ p, p < g0 * (2 * half) ∨ (g0 + c) * (2 * half) ≤ p →
          out.getD p 0 = input.getD p 0) := by
  intro c
  induction c with
  | zero =>
      intro input g0 _ _
      refine ⟨input, rfl, rfl, ?_, fun p _ => rfl⟩
      intro g j hg1 hg2 _
      omega
  | succ c ih =>
      intro input g0 htw hlen
      have hg0 : g0 < tw.length := by omega
      have hw := get?_eq_some_getD tw g0 hg0
      have hdiv : 2 * half / 2 = half := by omega
      have e0 : (g0 + (c + 1)) * (2 * half) = (g0 + c + 1) * (2 * half) := by ring
      have e1 : (g0 + 1) * (2 * half) = g0 * (2 * half) + 2 * half := by ring
      have e2 : (g0 + 1 + c) * (2 * half) = (g0 + c + 1) * (2 * half) := by ring
      have hmul : (g0 + 1) * (2 * half) ≤ (g0 + c + 1) * (2 * half) :=
        Nat.mul_le_mul_right _ (by omega)
      obtain ⟨out1, hbf, hbflen, hbf1, hbfu⟩ :=
        nrButterflies_char (tw.getD g0 0) half half input (g0 * (2 * half))
          (le_refl half) (by omega)
      obtain ⟨out, hrest, hlenr, hcl, hu⟩ :=
        ih out1 (g0 + 1) (by omega) (by rw [hbflen]; omega)
      refine ⟨out, ?_, hlenr.trans hbflen, ?_, ?_⟩
      · rw [nrGroups_succ tw (2 * half) input g0 c (tw.getD g0 0) out1 hw
          (by rw [hdiv]; exact hbf), hrest]
      · intro g j hg1 hg2 hj
        by_cases hgg : g = g0
        · subst hgg
          have hbfres := hbf1 (g * (2 * half) + j) (Nat.le_add_right _ _) (by omega)
          constructor
          · rw [hu _ (by omega), hbfres.1]
          · rw [hu _ (by omega), hbfres.2]
        · have hge : (g0 + 1) * (2 * half) ≤ g * (2 * half) :=
            Nat.mul_le_mul_right _ (by omega)
          have hcl1 := hcl g j (by omega) (by omega) hj
          rw [hbfu (g * (2 * half) + j) (by omega),
            hbfu (g * (2 * half) + j + half) (by omega)] at hcl1
          exact hcl1
      · intro p hp
        have hmul2 : g0 * (2 * half) ≤ (g0 + 1) * (2 * half) :=
          Nat.mul_le_mul_right _ (by omega)
        rw [hu p (by omega), hbfu p (by omega)]

/-! Division and modulus bookkeeping for stage positions. -/

lemma div_decompose (b q r : Nat) (hb : 0 < b) (hr : r < b) : (q * b + r) / b = q := by
  rw [mul_comm q b, Nat.mul_add_div hb, Nat.div_eq_of_lt hr, add_zero]

lemma mod_decompose (b q r : Nat) (hr : r < b) : (q * b + r) % b = r := by
  rw [mul_comm q b, Nat.mul_add_mod, Nat.mod_eq_of_lt hr]

lemma pow_two_k_eq_one (ω : F) (k : Nat) (hk : 1 ≤ k) (hω : ω ^ 2 ^ (k - 1) = -1) :
    ω ^ 2 ^ k = 1 := by
  have hsum : 2 ^ (k - 1) + 2 ^ (k - 1) = 2 ^ k := by
    have hk' : k - 1 + 1 = k := by omega
    calc 2 ^ (k - 1) + 2 ^ (k - 1) = 2 ^ (k - 1) * 2 := by ring
      _ = 2 ^ (k - 1 + 1) := by rw [pow_succ]
      _ = 2 ^ k := by rw [hk']
  calc ω ^ 2 ^ k = ω ^ (2 ^ (k - 1) + 2 ^ (k - 1)) := by rw [hsum]
    _ = ω ^ 2 ^ (k - 1) * ω ^ 2 ^ (k - 1) := by rw [pow_add]
    _ = (-1 : F) * (-1 : F) := by rw [hω]
    _ = 1 := by ring

/-- Algebraic core of the NR stage step, even output position: the
`2^(s+1)`-term partial combination at an even group `2*g` equals the top
butterfly output of the two `2^s`-term combinations, with the bit-reversed
twiddle `ω^(bitRev (k-1) g)`. -/
lemma nr_sum_even (ω : F) (k s : Nat) (hs : s < k)
    (v : List F) (G j : Nat) (hG : G < 2 ^ s) :
    (∑ t2 in Finset.range (2 ^ (s + 1)), v.getD (j + t2 * 2 ^ (k - (s + 1))) 0
        * ω ^ (bitRev (s + 1) (2 * G) * (t2 * 2 ^ (k - (s + 1))))) =
    (∑ t in Finset.range (2 ^ s), v.getD (j + t * 2 ^ (k - s)) 0
        * ω ^ (bitRev s G * (t * 2 ^ (k - s))))
      + ω ^ bitRev (k - 1) G
        * ∑ t in Finset.range (2 ^ s), v.getD (j + 2 ^ (k - (s + 1)) + t * 2 ^ (k - s)) 0
            * ω ^ (bitRev s G * (t * 2 ^ (k - s))) := by
  have hfull : 2 ^ (k - s) = 2 * 2 ^ (k - (s + 1)) := by
    have h1 : k - s = (k - (s + 1)) + 1 := by omega
    rw [h1, pow_succ]
    ring
  have hshift : bitRev (k - 1) G = 2 ^ (k - (s + 1)) * bitRev s G := by
    have h1 : k - 1 = (k - (s + 1)) + s := by omega
    rw [h1, bitRev_shift s (k - (s + 1)) G hG]
  have h2s : (2 : Nat) ^ (s + 1) = 2 * 2 ^ s := by
    rw [pow_succ]
    ring
  rw [bitRev_two_mul, h2s, sum_range_double, Finset.mul_sum]
  congr 1
  · refine Finset.sum_congr rfl fun t _ => ?_
    show v.getD (j + 2 * t * 2 ^ (k - (s + 1))) 0
        * ω ^ (bitRev s G * (2 * t * 2 ^ (k - (s + 1)))) = _
    rw [hfull]
    have e1 : j + 2 * t * 2 ^ (k - (s + 1)) = j + t * (2 * 2 ^ (k - (s + 1))) := by ring
    have e2 : bitRev s G * (2 * t * 2 ^ (k - (s + 1)))
        = bitRev s G * (t * (2 * 2 ^ (k - (s + 1)))) := by ring
    rw [e1, e2]
  · refine Finset.sum_congr rfl fun t _ => ?_
    show v.getD (j + (2 * t + 1) * 2 ^ (k - (s + 1))) 0
        * ω ^ (bitRev s G * ((2 * t + 1) * 2 ^ (k - (s + 1)))) = _
    rw [hfull, hshift]
    have e1 : j + (2 * t + 1) * 2 ^ (k - (s + 1))
        = j + 2 ^ (k - (s + 1)) + t * (2 * 2 ^ (k - (s + 1))) := by ring
    have e2 : bitRev s G * ((2 * t + 1) * 2 ^ (k - (s + 1)))
        = bitRev s G * (t * (2 * 2 ^ (k - (s + 1)))) + 2 ^ (k - (s + 1)) * bitRev s G := by
      ring
    rw [e1, e2, pow_add]
    ring

/-- Algebraic core of the NR stage step, odd output position: the
`2^(s+1)`-term partial combination at an odd group `2*g + 1` equals the
bottom butterfly output, using `ω^(2^(k-1)) = -1`. -/
lemma nr_sum_odd (ω : F) (k s : Nat) (hs : s < k) (hk : 1 ≤ k)
    (hω : ω ^ 2 ^ (k - 1) = -1)
    (v : List F) (G j : Nat) (hG : G < 2 ^ s) :
    (∑ t2 in Finset.range (2 ^ (s + 1)), v.getD (j + t2 * 2 ^ (k - (s + 1))) 0
        * ω ^ (bitRev (s + 1) (2 * G + 1) * (t2 * 2 ^ (k - (s + 1))))) =
    (∑ t in Finset.range (2 ^ s), v.getD (j + t * 2 ^ (k - s)) 0
        * ω ^ (bitRev s G * (t * 2 ^ (k - s))))
      - ω ^ bitRev (k - 1) G
        * ∑ t in Finset.range (2 ^ s), v.getD (j + 2 ^ (k - (s + 1)) + t * 2 ^ (k - s)) 0
            * ω ^ (bitRev s G * (t * 2 ^ (k - s))) := by
  have hone : ω ^ 2 ^ k = 1 := pow_two_k_eq_one ω k hk hω
  have hfull : 2 ^ (k - s) = 2 * 2 ^ (k - (s + 1)) := by
    have h1 : k - s = (k - (s + 1)) + 1 := by omega
    rw [h1, pow_succ]
    ring
  have hshift : bitRev (k - 1) G = 2 ^ (k - (s + 1)) * bitRev s G := by
    have h1 : k - 1 = (k - (s + 1)) + s := by omega
    rw [h1, bitRev_shift s (k - (s + 1)) G hG]
  have h2s : (2 : Nat) ^ (s + 1) = 2 * 2 ^ s := by
    rw [pow_succ]
    ring
  have hfull2k : 2 ^ s * (2 * 2 ^ (k - (s + 1))) = 2 ^ k := by
    rw [← hfull, ← pow_add]
    congr 1
    omega
  have hhalf2k : 2 ^ s * 2 ^ (k - (s + 1)) = 2 ^ (k - 1) := by
    rw [← pow_add]
    congr 1
    omega
  rw [bitRev_two_mul_add_one, h2s, sum_range_double, Finset.mul_sum, sub_eq_add_neg,
    ← Finset.sum_neg_distrib]
  congr 1
  · refine Finset.sum_congr rfl fun t _ => ?_
    show v.getD (j + 2 * t * 2 ^ (k - (s + 1))) 0
        * ω ^ ((bitRev s G + 2 ^ s) * (2 * t * 2 ^ (k - (s + 1)))) = _
    rw [hfull]
    have e1 : j + 2 * t * 2 ^ (k - (s + 1)) = j + t * (2 * 2 ^ (k - (s + 1))) := by ring
    have e2 : (bitRev s G + 2 ^ s) * (2 * t * 2 ^ (k - (s + 1)))
        = bitRev s G * (t * (2 * 2 ^ (k - (s + 1)))) + 2 ^ s * (2 * 2 ^ (k - (s + 1))) * t := by
      ring
    rw [e1, e2, pow_add, hfull2k, pow_mul ω (2 ^ k) t, hone, one_pow, mul_one]
  · refine Finset.sum_congr rfl fun t _ => ?_
    show v.getD (j + (2 * t + 1) * 2 ^ (k - (s + 1))) 0
        * ω ^ ((bitRev s G + 2 ^ s) * ((2 * t + 1) * 2 ^ (k - (s + 1)))) = _
    rw [hfull, hshift]
    have e1 : j + (2 * t + 1) * 2 ^ (k - (s + 1))
        = j + 2 ^ (k - (s + 1)) + t * (2 * 2 ^ (k - (s + 1))) := by ring
    have e2 : (bitRev s G + 2 ^ s) * ((2 * t + 1) * 2 ^ (k - (s + 1)))
        = bitRev s G * (t * (2 * 2 ^ (k - (s + 1))))
          + 2 ^ (k - (s + 1)) * bitRev s G
          + 2 ^ s * (2 * 2 ^ (k - (s + 1))) * t
          + 2 ^ s * 2 ^ (k - (s + 1)) := by ring
    rw [e1, e2, pow_add, pow_add, pow_add, hfull2k, pow_mul ω (2 ^ k) t, hone, one_pow,
      hhalf2k, hω]
    ring

/-! Lengths and entries of the snapshot and twiddle lists. -/

lemma nrSnapshot_length (ω : F) (k s : Nat) (v : List F) :
    (nrSnapshot ω k s v).length = 2 ^ k := by
  rw [nrSnapshot, List.length_map, List.length_range]

lemma nrSnapshot_getD (ω : F) (k s : Nat) (v : List F) (p : Nat) (hp : p < 2 ^ k) :
    (nrSnapshot ω k s v).getD p 0
      = ∑ t in Finset.range (2 ^ s), v.getD (p % 2 ^ (k - s) + t * 2 ^ (k - s)) 0
          * ω ^ (bitRev s (p / 2 ^ (k - s)) * (t * 2 ^ (k - s))) := by
  rw [nrSnapshot, getD_map_range, if_pos hp]

lemma bitrev_twiddles_length (ω : F) (k : Nat) :
    (bitrev_twiddles ω k).length = 2 ^ (k - 1) := by
  rw [bitrev_twiddles, List.length_map, List.length_range]

lemma bitrev_twiddles_getD (ω : F) (k G : Nat) (hG : G < 2 ^ (k - 1)) :
    (bitrev_twiddles ω k).getD G 0 = ω ^ bitRev (k - 1) G := by
  rw [bitrev_twiddles, getD_map_range, if_pos hG]

/-- One NR stage advances the snapshot invariant from `s` to `s + 1`. -/
lemma nrStage (ω : F) (k s : Nat) (hk : 1 ≤ k) (hs : s < k) (hω : ω ^ 2 ^ (k - 1) = -1)
    (v : List F) :
    nrGroups (bitrev_twiddles ω k) (2 ^ (k - s)) (nrSnapshot ω k s v) 0 (2 ^ s)
      = Except.ok (nrSnapshot ω k (s + 1) v) := by
  have hpos : 0 < 2 ^ (k - (s + 1)) := Nat.pos_pow_of_pos _ (by norm_num)
  have hpos2 : 0 < 2 ^ (k - s) := Nat.pos_pow_of_pos _ (by norm_num)
  have hgs : 2 ^ (k - s) = 2 * 2 ^ (k - (s + 1)) := by
    have h1 : k - s = (k - (s + 1)) + 1 := by omega
    rw [h1, pow_succ]
    ring
  have hfull2k : 2 ^ s * 2 ^ (k - s) = 2 ^ k := by
    rw [← pow_add]
    congr 1
    omega
  have hsk1 : 2 ^ s ≤ 2 ^ (k - 1) :=
    Nat.pow_le_pow_right (by norm_num) (by omega)
  obtain ⟨out, hok, hlen, hcl, _⟩ :=
    nrGroups_char (bitrev_twiddles ω k) (2 ^ (k - (s + 1))) hpos (2 ^ s)
      (nrSnapshot ω k s v) 0
      (by rw [bitrev_twiddles_length]; omega)
      (by rw [nrSnapshot_length, zero_add, ← hgs]; exact le_of_eq hfull2k)
  rw [hgs, hok]
  congr 1
  apply list_ext_getD
  · rw [hlen, nrSnapshot_length, nrSnapshot_length]
  · intro p hp
    rw [hlen, nrSnapshot_length] at hp
    obtain ⟨G, r, hGlt, hrlt, rfl⟩ :
        ∃ G r, G < 2 ^ s ∧ r < 2 ^ (k - s) ∧ G * 2 ^ (k - s) + r = p := by
      refine ⟨p / 2 ^ (k - s), p % 2 ^ (k - s),
        (Nat.div_lt_iff_lt_mul hpos2).mpr (by rw [hfull2k]; exact hp),
        Nat.mod_lt _ hpos2, ?_⟩
      rw [mul_comm]
      exact Nat.div_add_mod p _
    have hub : G * 2 ^ (k - s) + 2 ^ (k - s) ≤ 2 ^ k := by
      have h1 := Nat.mul_le_mul_right (2 ^ (k - s)) (show G + 1 ≤ 2 ^ s by omega)
      rw [hfull2k] at h1
      have e : (G + 1) * 2 ^ (k - s) = G * 2 ^ (k - s) + 2 ^ (k - s) := by ring
      omega
    have htw : (bitrev_twiddles ω k).getD G 0 = ω ^ bitRev (k - 1) G :=
      bitrev_twiddles_getD ω k G (by omega)
    by_cases hr : r < 2 ^ (k - (s + 1))
    · -- even output position of the new stage
      have hclA := (hcl G r (by omega) (by omega) hr).1
      rw [← hgs] at hclA
      have hA1 : (nrSnapshot ω k s v).getD (G * 2 ^ (k - s) + r) 0
          = ∑ t in Finset.range (2 ^ s), v.getD (r + t * 2 ^ (k - s)) 0
              * ω ^ (bitRev s G * (t * 2 ^ (k - s))) := by
        rw [nrSnapshot_getD ω k s v _ (by omega), mod_decompose _ G r hrlt,
          div_decompose _ G r hpos2 hrlt]
      have hA2 : (nrSnapshot ω k s v).getD (G * 2 ^ (k - s) + r + 2 ^ (k - (s + 1))) 0
          = ∑ t in Finset.range (2 ^ s), v.getD (r + 2 ^ (k - (s + 1)) + t * 2 ^ (k - s)) 0
              * ω ^ (bitRev s G * (t * 2 ^ (k - s))) := by
        have e : G * 2 ^ (k - s) + r + 2 ^ (k - (s + 1))
            = G * 2 ^ (k - s) + (r + 2 ^ (k - (s + 1))) := by omega
        rw [e, nrSnapshot_getD ω k s v _ (by omega),
          mod_decompose _ G _ (by omega), div_decompose _ G _ hpos2 (by omega)]
      have hB : (nrSnapshot ω k (s + 1) v).getD (G * 2 ^ (k - s) + r) 0
          = ∑ t2 in Finset.range (2 ^ (s + 1)), v.getD (r + t2 * 2 ^ (k - (s + 1))) 0
              * ω ^ (bitRev (s + 1) (2 * G) * (t2 * 2 ^ (k - (s + 1)))) := by
        have e : G * 2 ^ (k - s) + r = 2 * G * 2 ^ (k - (s + 1)) + r := by
          rw [hgs]
          ring
        rw [e, nrSnapshot_getD ω k (s + 1) v _ (by omega),
          mod_decompose _ (2 * G) r hr, div_decompose _ (2 * G) r hpos hr]
      rw [hclA, hA1, hA2, hB, htw]
      exact (nr_sum_even ω k s hs v G r hGlt).symm
    · -- odd output position of the new stage
      obtain ⟨j, rfl⟩ : ∃ j, r = j + 2 ^ (k - (s + 1)) := ⟨r - 2 ^ (k - (s + 1)), by omega⟩
      have hj : j < 2 ^ (k - (s + 1)) := by omega
      have hclB := (hcl G j (by omega) (by omega) hj).2
      rw [← hgs] at hclB
      have epos : G * 2 ^ (k - s) + (j + 2 ^ (k - (s + 1)))
          = G * 2 ^ (k - s) + j + 2 ^ (k - (s + 1)) := by omega
      rw [epos, hclB]
      have hA1 : (nrSnapshot ω k s v).getD (G * 2 ^ (k - s) + j) 0
          = ∑ t in Finset.range (2 ^ s), v.getD (j + t * 2 ^ (k - s)) 0
              * ω ^ (bitRev s G * (t * 2 ^ (k - s))) := by
        rw [nrSnapshot_getD ω k s v _ (by omega), mod_decompose _ G j (by omega),
          div_decompose _ G j hpos2 (by omega)]
      have hA2 : (nrSnapshot ω k s v).getD (G * 2 ^ (k - s) + j + 2 ^ (k - (s + 1))) 0
          = ∑ t in Finset.range (2 ^ s), v.getD (j + 2 ^ (k - (s + 1)) + t * 2 ^ (k - s)) 0
              * ω ^ (bitRev s G * (t * 2 ^ (k - s))) := by
        rw [← epos, nrSnapshot_getD ω k s v _ (by omega),
          mod_decompose _ G _ (by omega), div_decompose _ G _ hpos2 (by omega)]
      have hB : (nrSnapshot ω k (s + 1) v).getD (G * 2 ^ (k - s) + j + 2 ^ (k - (s + 1))) 0
          = ∑ t2 in Finset.range (2 ^ (s + 1)), v.getD (j + t2 * 2 ^ (k - (s + 1))) 0
              * ω ^ (bitRev (s + 1) (2 * G + 1) * (t2 * 2 ^ (k - (s + 1)))) := by
        have e : G * 2 ^ (k - s) + j + 2 ^ (k - (s + 1))
            = (2 * G + 1) * 2 ^ (k - (s + 1)) + j := by
          rw [hgs]
          ring
        rw [e, nrSnapshot_getD ω k (s + 1) v _ (by omega),
          mod_decompose _ (2 * G + 1) j hj, div_decompose _ (2 * G + 1) j hpos hj]
      rw [hA1, hA2, hB, htw]
      exact (nr_sum_odd ω k s hs hk hω v G j hGlt).symm

/-! Unfolding of the NR stage loop. -/

lemma nrLoop_exit (tw input : List F) (gc gs fuel : Nat) (h : ¬ gc < input.length) :
    nrLoop tw input gc gs fuel = Except.ok input := by
  cases fuel with
  | zero => rfl
  | succ f => simp [nrLoop, h]

lemma nrLoop_step (tw input input2 : List F) (gc gs fuel : Nat)
    (h : gc < input.length) (hgr : nrGroups tw gs input 0 gc = Except.ok input2) :
    nrLoop tw input gc gs (fuel + 1) = nrLoop tw input2 (2 * gc) (gs / 2) fuel := by
  simp [nrLoop, h, hgr]

/-- Chaining the NR stages: starting from the stage-`(k - d)` snapshot with
`d` stages to go, the loop produces the final snapshot. -/
lemma nrLoop_snapshot (ω : F) (k : Nat) (hk : 1 ≤ k) (hω : ω ^ 2 ^ (k - 1) = -1)
    (v : List F) :
    ∀ d, d ≤ k → ∀ fuel, d ≤ fuel →
      nrLoop (bitrev_twiddles ω k) (nrSnapshot ω k (k - d) v) (2 ^ (k - d)) (2 ^ d) fuel
        = Except.ok (nrSnapshot ω k k v) := by
  intro d
  induction d with
  | zero =>
      intro _ fuel _
      rw [Nat.sub_zero]
      exact nrLoop_exit _ _ _ _ _ (by rw [nrSnapshot_length]; omega)
  | succ d ih =>
      intro hd fuel hfuel
      cases fuel with
      | zero => omega
      | succ f =>
          have hstage := nrStage ω k (k - (d + 1)) hk (by omega) hω v
          have e1 : k - (k - (d + 1)) = d + 1 := by omega
          have e2 : k - (d + 1) + 1 = k - d := by omega
          rw [e1, e2] at hstage
          rw [nrLoop_step (bitrev_twiddles ω k) _ _ _ _ f
            (by rw [nrSnapshot_length]; exact Nat.pow_lt_pow_right (by norm_num) (by omega))
            hstage]
          have e3 : 2 * 2 ^ (k - (d + 1)) = 2 ^ (k - d) := by
            have h1 : k - d = (k - (d + 1)) + 1 := by omega
            rw [h1, pow_succ]
            ring
          have e4 : 2 ^ (d + 1) / 2 = 2 ^ d := by
            rw [pow_succ]
            omega
          rw [e3, e4]
          exact ih (by omega) f (by omega)

/-- Initial snapshot: before any stage the buffer is the input itself. -/
lemma nrSnapshot_zero (ω : F) (k : Nat) (v : List F) (hv : v.length = 2 ^ k) :
    nrSnapshot ω k 0 v = v := by
  apply list_ext_getD
  · rw [nrSnapshot_length, hv]
  · intro p hp
    rw [nrSnapshot_length] at hp
    rw [nrSnapshot_getD ω k 0 v p hp, pow_zero, Finset.sum_range_one]
    simp [bitRev, Nat.mod_eq_of_lt hp]

/-- Final snapshot: after all `k` stages, position `g` holds the DFT value
of frequency `bitRev k g`. -/
lemma nrSnapshot_final (ω : F) (k : Nat) (v : List F) (g : Nat) (hg : g < 2 ^ k) :
    (nrSnapshot ω k k v).getD g 0
      = ∑ t in Finset.range (2 ^ k), v.getD t 0 * ω ^ (bitRev k g * t) := by
  rw [nrSnapshot_getD ω k k v g hg]
  simp [Nat.sub_self, Nat.mod_one, Nat.div_one]

/-- The NR transform on a power-of-two input with bit-reversed twiddles
returns the final snapshot, with no error. -/
lemma nr_fft_value (ω : F) (k : Nat) (v : List F) (hk : 1 ≤ k)
    (hω : ω ^ 2 ^ (k - 1) = -1) (hv : v.length = 2 ^ k) :
    in_place_nr_2radix_fft v (bitrev_twiddles ω k) = Except.ok (nrSnapshot ω k k v) := by
  rw [in_place_nr_2radix_fft, hv]
  have h0 := nrLoop_snapshot ω k hk hω v k (le_refl k) (2 ^ k)
    (Nat.le_of_lt (Nat.lt_two_pow k))
  rw [Nat.sub_self, pow_zero, nrSnapshot_zero ω k v hv] at h0
  exact h0

/-- Entries of the reference oracle. -/
lemma dft_getD (ω : F) (v : List F) (i : Nat) (hi : i < v.length) :
    (dft ω v).getD i 0
      = ∑ col in Finset.range v.length, v.getD col 0 * ω ^ (i * col % v.length) := by
  rw [dft]
  rw [getD_map_range, if_pos hi]
  refine Finset.sum_congr rfl fun col _ => ?_
  rw [getD_map_range, if_pos (Nat.mod_lt _ (by omega))]

lemma dft_length (ω : F) (v : List F) : (dft ω v).length = v.length := by
  rw [dft, List.length_map, List.length_range]

/-- Bit-reversing the final NR snapshot yields exactly the oracle. -/
lemma nr_final_bitrev (ω : F) (k : Nat) (v : List F) (hk : 1 ≤ k)
    (hω : ω ^ 2 ^ (k - 1) = -1) (hv : v.length = 2 ^ k) :
    bit_reverse_permute k (nrSnapshot ω k k v) = dft ω v := by
  have hn : ω ^ 2 ^ k = 1 := pow_two_k_eq_one ω k hk hω
  apply list_ext_getD
  · rw [bit_reverse_permute, List.length_map, List.length_range, nrSnapshot_length,
      dft_length, hv]
  · intro p hp
    rw [bit_reverse_permute, List.length_map, List.length_range, nrSnapshot_length] at hp
    rw [bit_reverse_permute, nrSnapshot_length, getD_map_range, if_pos hp,
      nrSnapshot_final ω k v _ (bitRev_lt k p), bitRev_bitRev k p hp,
      dft_getD ω v p (by omega), hv]
    refine Finset.sum_congr rfl fun t _ => ?_
    rw [pow_mod_of_pow_eq_one ω (2 ^ k) hn (p * t)]

/-! RN side: unfolding equations and disjointness of the strided positions. -/

lemma rnButterflies_zero (tw : List F) (twIdx gc step : Nat) (input : List F) (i : Nat) :
    rnButterflies tw twIdx gc step input i 0 = Except.ok input := rfl

lemma rnButterflies_succ (tw : List F) (twIdx gc step : Nat) (input : List F) (i c : Nat)
    (w a b : F) (hw : tw.get? twIdx = some w)
    (ha : input.get? i = some a) (hb : input.get? (i + gc) = some b) :
    rnButterflies tw twIdx gc step input i (c + 1) =
      rnButterflies tw twIdx gc step
        ((input.set i (a + w * b)).set (i + gc) (a - w * b)) (i + step) c := by
  rw [List.get?_eq_getElem?] at hw ha hb
  simp [rnButterflies, hw, ha, hb]

lemma stride_ne_same_side (gc g g0 m m2 : Nat) (hg0 : g0 < gc) (hg : g < gc)
    (hne : g0 ≠ g) : g0 + m * (2 * gc) ≠ g + m2 * (2 * gc) := by
  intro h
  rcases Nat.lt_trichotomy m m2 with hm | hm | hm
  · obtain ⟨d, rfl⟩ : ∃ d, m2 = m + 1 + d := ⟨m2 - m - 1, by omega⟩
    have e : (m + 1 + d) * (2 * gc) = m * (2 * gc) + 2 * gc + d * (2 * gc) := by ring
    omega
  · subst hm
    omega
  · obtain ⟨d, rfl⟩ : ∃ d, m = m2 + 1 + d := ⟨m - m2 - 1, by omega⟩
    have e : (m2 + 1 + d) * (2 * gc) = m2 * (2 * gc) + 2 * gc + d * (2 * gc) := by ring
    omega

lemma stride_ne_cross_side (gc g g0 m m2 : Nat) (hg0 : g0 < gc) (hg : g < gc) :
    g0 + m * (2 * gc) ≠ g + m2 * (2 * gc) + gc := by
  intro h
  rcases Nat.lt_or_ge m2 m with hm | hm
  · obtain ⟨d, rfl⟩ : ∃ d, m = m2 + 1 + d := ⟨m - m2 - 1, by omega⟩
    have e : (m2 + 1 + d) * (2 * gc) = m2 * (2 * gc) + 2 * gc + d * (2 * gc) := by ring
    omega
  · obtain ⟨d, rfl⟩ : ∃ d, m2 = m + d := ⟨m2 - m, by omega⟩
    have e : (m + d) * (2 * gc) = m * (2 * gc) + d * (2 * gc) := by ring
    omega

/-- Pointwise characterization of the RN inner loop for stride `2 * gc`:
the `c` butterflies of a group starting at `i` update the position pairs
`(i + m*(2*gc), i + m*(2*gc) + gc)`; everything else is untouched, and no
out-of-bounds error occurs. -/
lemma rnButterflies_char (tw : List F) (twIdx gc : Nat) (hgc : 0 < gc)
    (htw : twIdx < tw.length) :
    ∀ (c : Nat) (input : List F) (i : Nat),
      (∀ m, m < c → i + m * (2 * gc) + gc < input.length) →
      ∃ out, rnButterflies tw twIdx gc (2 * gc) input i c = Except.ok out ∧
        out.length = input.length ∧
        (∀ m, m < c →
          out.getD (i + m * (2 * gc)) 0
            = input.getD (i + m * (2 * gc)) 0
              + tw.getD twIdx 0 * input.getD (i + m * (2 * gc) + gc) 0 ∧
          out.getD (i + m * (2 * gc) + gc) 0
            = input.getD (i + m * (2 * gc)) 0
              - tw.getD twIdx 0 * input.getD (i + m * (2 * gc) + gc) 0) ∧
        (∀ p, (∀ m, m < c → p ≠ i + m * (2 * gc) ∧ p ≠ i + m * (2 * gc) + gc) →
          out.getD p 0 = input.getD p 0) := by
  intro c
  induction c with
  | zero =>
      intro input i _
      exact ⟨input, rfl, rfl, fun m hm => absurd hm (Nat.not_lt_zero m), fun p _ => rfl⟩
  | succ c ih =>
      intro input i hbound
      have h0 := hbound 0 (Nat.succ_pos c)
      have e0 : i + 0 * (2 * gc) = i := by ring
      rw [e0] at h0
      have hi : i < input.length := by omega
      have hig : i + gc < input.length := by omega
      have hw := get?_eq_some_getD tw twIdx htw
      have ha := get?_eq_some_getD input i hi
      have hb := get?_eq_some_getD input (i + gc) hig
      set w := tw.getD twIdx 0 with hwdef
      set a := input.getD i 0 with hadef
      set b := input.getD (i + gc) 0 with hbdef
      set input2 := (input.set i (a + w * b)).set (i + gc) (a - w * b) with h2def
      have hlen2 : input2.length = input.length := by
        rw [h2def, List.length_set, List.length_set]
      have hval2 : ∀ p, p ≠ i → p ≠ i + gc → input2.getD p 0 = input.getD p 0 := by
        intro p hp1 hp2
        rw [h2def, getD_set_ne _ _ _ _ (fun h => hp2 h.symm),
          getD_set_ne _ _ _ _ (fun h => hp1 h.symm)]
      have hval2i : input2.getD i 0 = a + w * b := by
        rw [h2def, getD_set_ne _ _ _ _ (by omega), getD_set_self _ _ _ hi]
      have hval2ig : input2.getD (i + gc) 0 = a - w * b := by
        rw [h2def, getD_set_self]
        rw [List.length_set]
        exact hig
      obtain ⟨out, hout, holen, hclause, huntouched⟩ := ih input2 (i + 2 * gc) (by
        intro m hm
        have h1 := hbound (m + 1) (by omega)
        have e : (m + 1) * (2 * gc) = 2 * gc + m * (2 * gc) := by ring
        rw [hlen2]
        omega)
      refine ⟨out, ?_, holen.trans hlen2, ?_, ?_⟩
      · rw [rnButterflies_succ tw twIdx gc (2 * gc) input i c w a b hw ha hb, ← h2def, hout]
      · intro m hm
        by_cases hm0 : m = 0
        · subst hm0
          rw [e0]
          have hu1 : out.getD i 0 = input2.getD i 0 := by
            apply huntouched
            intro m2 _
            constructor
            · intro h
              have e : m2 * (2 * gc) ≥ 0 := Nat.zero_le _
              omega
            · intro h
              omega
          have hu2 : out.getD (i + gc) 0 = input2.getD (i + gc) 0 := by
            apply huntouched
            intro m2 _
            constructor
            · intro h
              omega
            · intro h
              omega
          rw [hu1, hu2, hval2i, hval2ig]
          exact ⟨rfl, rfl⟩
        · obtain ⟨m2, rfl⟩ : ∃ m2, m = m2 + 1 := ⟨m - 1, by omega⟩
          have e : i + (m2 + 1) * (2 * gc) = i + 2 * gc + m2 * (2 * gc) := by ring
          rw [e]
          have hc := hclause m2 (by omega)
          rw [hval2 _ (by omega) (by omega), hval2 _ (by omega) (by omega)] at hc
          exact hc
      · intro p hp
        have hp0 := hp 0 (Nat.succ_pos c)
        rw [e0] at hp0
        have hrec : out.getD p 0 = input2.getD p 0 := by
          apply huntouched
          intro m2 hm2
          have h1 := hp (m2 + 1) (by omega)
          have e : i + (m2 + 1) * (2 * gc) = i + 2 * gc + m2 * (2 * gc) := by ring
          rw [e] at h1
          exact h1
        rw [hrec, hval2 p hp0.1 hp0.2]

lemma rnGroups_zero (tw : List F) (gc gs : Nat) (input : List F) (g : Nat) :
    rnGroups tw gc gs input g 0 = Except.ok input := rfl

lemma rnGroups_succ (tw : List F) (gc gs : Nat) (input out1 : List F) (g c : Nat)
    (hbf : rnButterflies tw (g * gs / 2) gc (2 * gc) input g
      ((2 * gc) * (gs / 2 - 1) / (2 * gc) + 1) = Except.ok out1) :
    rnGroups tw gc gs input g (c + 1) = rnGroups tw gc gs out1 (g + 1) c := by
  simp [rnGroups, hbf]

/-- Pointwise characterization of the RN group loop for an even group size
`2 * half` and `gc` groups: group `g` updates the interleaved position pairs
`(g + m*(2*gc), g + m*(2*gc) + gc)` for `m < half`, using the single twiddle
`tw[g * half]`; other positions are untouched and no error occurs. -/
lemma rnGroups_char (tw : List F) (gc half : Nat) (hgc : 0 < gc) (hhalf : 0 < half)
    (htw : gc * half ≤ tw.length) :
    ∀ (c : Nat) (input : List F) (g0 : Nat),
      g0 + c ≤ gc → gc * (2 * half) ≤ input.length →
      ∃ out, rnGroups tw gc (2 * half) input g0 c = Except.ok out ∧
        out.length = input.length ∧
        (∀ g m, g0 ≤ g → g < g0 + c → m < half →
          out.getD (g + m * (2 * gc)) 0
            = input.getD (g + m * (2 * gc)) 0
              + tw.getD (g * half) 0 * input.getD (g + m * (2 * gc) + gc) 0 ∧
          out.getD (g + m * (2 * gc) + gc) 0
            = input.getD (g + m * (2 * gc)) 0
              - tw.getD (g * half) 0 * input.getD (g + m * (2 * gc) + gc) 0) ∧
        (∀ p, (∀ g m, g0 ≤ g → g < g0 + c → m < half →
            p ≠ g + m * (2 * gc) ∧ p ≠ g + m * (2 * gc) + gc) →
          out.getD p 0 = input.getD p 0) := by
  intro c
  induction c with
  | zero =>
      intro input g0 _ _
      refine ⟨input, rfl, rfl, ?_, fun p _ => rfl⟩
      intro g m hg1 hg2 _
      omega
  | succ c ih =>
      intro input g0 hgg hlen
      have hg0lt : g0 < gc := by omega
      have hcount : (2 * gc) * ((2 * half) / 2 - 1) / (2 * gc) + 1 = half := by
        have h1 : (2 * half) / 2 = half := by omega
        rw [h1, Nat.mul_div_cancel_left _ (by omega : 0 < 2 * gc)]
        omega
      have hidx : g0 * (2 * half) / 2 = g0 * half := by
        have e : g0 * (2 * half) = (g0 * half) * 2 := by ring
        rw [e, Nat.mul_div_cancel _ (by norm_num : 0 < 2)]
      have htwb : g0 * half < tw.length := by
        have h1 : (g0 + 1) * half ≤ gc * half := Nat.mul_le_mul_right _ (by omega)
        have e : (g0 + 1) * half = g0 * half + half := by ring
        omega
      obtain ⟨out1, hbf, hbflen, hbf1, hbfu⟩ :=
        rnButterflies_char tw (g0 * half) gc hgc htwb half input g0 (by
          intro m hm
          have h1 : (m + 1) * (2 * gc) ≤ half * (2 * gc) := Nat.mul_le_mul_right _ (by omega)
          have e1 : (m + 1) * (2 * gc) = m * (2 * gc) + 2 * gc := by ring
          have e2 : half * (2 * gc) = gc * (2 * half) := by ring
          omega)
      obtain ⟨out, hrest, hlenr, hcl, hu⟩ := ih out1 (g0 + 1) (by omega)
        (by rw [hbflen]; exact hlen)
      refine ⟨out, ?_, hlenr.trans hbflen, ?_, ?_⟩
      · rw [rnGroups_succ tw gc (2 * half) input out1 g0 c
          (by rw [hcount, hidx]; exact hbf), hrest]
      · intro g m hg1 hg2 hm
        by_cases hgg0 : g = g0
        · subst hgg0
          have hbfres := hbf1 m hm
          constructor
          · rw [hu _ ?side, hbfres.1]
            case side =>
              intro g2 m2 hg21 hg22 hm2
              refine ⟨stride_ne_same_side gc g2 g m m2 hg0lt (by omega) (by omega), ?_⟩
              exact stride_ne_cross_side gc g2 g m m2 hg0lt (by omega)
          · rw [hu _ ?side2, hbfres.2]
            case side2 =>
              intro g2 m2 hg21 hg22 hm2
              constructor
              · exact (stride_ne_cross_side gc g g2 m2 m (by omega) hg0lt).symm
              · have h1 := stride_ne_same_side gc g2 g m m2 hg0lt (by omega) (by omega)
                omega
        · have hglt : g < gc := by omega
          have hcl1 := hcl g m (by omega) (by omega) hm
          have hr1 : out1.getD (g + m * (2 * gc)) 0 = input.getD (g + m * (2 * gc)) 0 := by
            apply hbfu
            intro m2 hm2
            refine ⟨stride_ne_same_side gc g0 g m m2 hglt hg0lt (by omega), ?_⟩
            exact stride_ne_cross_side gc g0 g m m2 hglt hg0lt
          have hr2 : out1.getD (g + m * (2 * gc) + gc) 0
              = input.getD (g + m * (2 * gc) + gc) 0 := by
            apply hbfu
            intro m2 hm2
            constructor
            · exact (stride_ne_cross_side gc g g0 m2 m hg0lt hglt).symm
            · have h1 := stride_ne_same_side gc g0 g m m2 hglt hg0lt (by omega)
              omega
          rw [hr1, hr2] at hcl1
          exact hcl1
      · intro p hp
        have hrec : out.getD p 0 = out1.getD p 0 := by
          apply hu
          intro g2 m2 hg21 hg22 hm2
          exact hp g2 m2 (by omega) (by omega) hm2
        rw [hrec]
        apply hbfu
        intro m2 hm2
        exact hp g0 m2 (by omega) (by omega) hm2

/-! RN snapshot machinery. -/

lemma rnSnapshot_length (ω : F) (k s : Nat) (u : List F) :
    (rnSnapshot ω k s u).length = 2 ^ k := by
  rw [rnSnapshot, List.length_map, List.length_range]

lemma rnSnapshot_getD (ω : F) (k s : Nat) (u : List F) (p : Nat) (hp : p < 2 ^ k) :
    (rnSnapshot ω k s u).getD p 0
      = ∑ t in Finset.range (2 ^ s), u.getD (p / 2 ^ s * 2 ^ s + bitRev s t) 0
          * ω ^ (2 ^ (k - s) * (p % 2 ^ s * t)) := by
  rw [rnSnapshot, getD_map_range, if_pos hp]

lemma natural_twiddles_length (ω : F) (n : Nat) :
    (natural_twiddles ω n).length = n / 2 := by
  rw [natural_twiddles, List.length_map, List.length_range]

lemma natural_twiddles_getD (ω : F) (n i : Nat) (hi : i < n / 2) :
    (natural_twiddles ω n).getD i 0 = ω ^ i := by
  rw [natural_twiddles, getD_map_range, if_pos hi]

/-- Algebraic core of the RN stage step, position `g + m * 2^(s+1)`
(the top output of the butterfly pair). -/
lemma rn_sum_even (ω : F) (k s : Nat) (hs : s < k) (u : List F) (g m : Nat) :
    (∑ t2 in Finset.range (2 ^ (s + 1)), u.getD (m * 2 ^ (s + 1) + bitRev (s + 1) t2) 0
        * ω ^ (2 ^ (k - (s + 1)) * (g * t2))) =
    (∑ t in Finset.range (2 ^ s), u.getD (2 * m * 2 ^ s + bitRev s t) 0
        * ω ^ (2 ^ (k - s) * (g * t)))
      + ω ^ (g * 2 ^ (k - (s + 1)))
        * ∑ t in Finset.range (2 ^ s), u.getD ((2 * m + 1) * 2 ^ s + bitRev s t) 0
            * ω ^ (2 ^ (k - s) * (g * t)) := by
  have hgs : 2 ^ (k - s) = 2 * 2 ^ (k - (s + 1)) := by
    have h1 : k - s = (k - (s + 1)) + 1 := by omega
    rw [h1, pow_succ]
    ring
  have h2s : (2 : Nat) ^ (s + 1) = 2 * 2 ^ s := by
    rw [pow_succ]
    ring
  rw [h2s, sum_range_double, Finset.mul_sum]
  congr 1
  · refine Finset.sum_congr rfl fun t _ => ?_
    show u.getD (m * (2 * 2 ^ s) + bitRev (s + 1) (2 * t)) 0
        * ω ^ (2 ^ (k - (s + 1)) * (g * (2 * t))) = _
    rw [bitRev_two_mul, hgs]
    have e1 : m * (2 * 2 ^ s) + bitRev s t = 2 * m * 2 ^ s + bitRev s t := by ring
    have e2 : 2 ^ (k - (s + 1)) * (g * (2 * t)) = 2 * 2 ^ (k - (s + 1)) * (g * t) := by ring
    rw [e1, e2]
  · refine Finset.sum_congr rfl fun t _ => ?_
    show u.getD (m * (2 * 2 ^ s) + bitRev (s + 1) (2 * t + 1)) 0
        * ω ^ (2 ^ (k - (s + 1)) * (g * (2 * t + 1))) = _
    rw [bitRev_two_mul_add_one, hgs]
    have e1 : m * (2 * 2 ^ s) + (bitRev s t + 2 ^ s) = (2 * m + 1) * 2 ^ s + bitRev s t := by
      ring
    have e2 : 2 ^ (k - (s + 1)) * (g * (2 * t + 1))
        = 2 * 2 ^ (k - (s + 1)) * (g * t) + g * 2 ^ (k - (s + 1)) := by ring
    rw [e1, e2, pow_add]
    ring

/-- Algebraic core of the RN stage step, position `g + m * 2^(s+1) + 2^s`
(the bottom output of the butterfly pair), using `ω^(2^(k-1)) = -1`. -/
lemma rn_sum_odd (ω : F) (k s : Nat) (hs : s < k) (hk : 1 ≤ k)
    (hω : ω ^ 2 ^ (k - 1) = -1) (u : List F) (g m : Nat) :
    (∑ t2 in Finset.range (2 ^ (s + 1)), u.getD (m * 2 ^ (s + 1) + bitRev (s + 1) t2) 0
        * ω ^ (2 ^ (k - (s + 1)) * ((2 ^ s + g) * t2))) =
    (∑ t in Finset.range (2 ^ s), u.getD (2 * m * 2 ^ s + bitRev s t) 0
        * ω ^ (2 ^ (k - s) * (g * t)))
      - ω ^ (g * 2 ^ (k - (s + 1)))
        * ∑ t in Finset.range (2 ^ s), u.getD ((2 * m + 1) * 2 ^ s + bitRev s t) 0
            * ω ^ (2 ^ (k - s) * (g * t)) := by
  have hone : ω ^ 2 ^ k = 1 := pow_two_k_eq_one ω k hk hω
  have hgs : 2 ^ (k - s) = 2 * 2 ^ (k - (s + 1)) := by
    have h1 : k - s = (k - (s + 1)) + 1 := by omega
    rw [h1, pow_succ]
    ring
  have h2s : (2 : Nat) ^ (s + 1) = 2 * 2 ^ s := by
    rw [pow_succ]
    ring
  have hm1 : 2 ^ (k - (s + 1)) * 2 ^ s = 2 ^ (k - 1) := by
    rw [← pow_add]
    congr 1
    omega
  have hm2 : 2 ^ (k - 1) * 2 = 2 ^ k := by
    rw [← pow_succ]
    congr 1
    omega
  rw [h2s, sum_range_double, Finset.mul_sum, sub_eq_add_neg, ← Finset.sum_neg_distrib]
  congr 1
  · refine Finset.sum_congr rfl fun t _ => ?_
    show u.getD (m * (2 * 2 ^ s) + bitRev (s + 1) (2 * t)) 0
        * ω ^ (2 ^ (k - (s + 1)) * ((2 ^ s + g) * (2 * t))) = _
    rw [bitRev_two_mul, hgs]
    have e1 : m * (2 * 2 ^ s) + bitRev s t = 2 * m * 2 ^ s + bitRev s t := by ring
    have e2 : 2 ^ (k - (s + 1)) * ((2 ^ s + g) * (2 * t))
        = 2 * 2 ^ (k - (s + 1)) * (g * t) + 2 ^ (k - (s + 1)) * 2 ^ s * 2 * t := by ring
    rw [e1, e2, pow_add, hm1, hm2, pow_mul ω (2 ^ k) t, hone, one_pow, mul_one]
  · refine Finset.sum_congr rfl fun t _ => ?_
    show u.getD (m * (2 * 2 ^ s) + bitRev (s + 1) (2 * t + 1)) 0
        * ω ^ (2 ^ (k - (s + 1)) * ((2 ^ s + g) * (2 * t + 1))) = _
    rw [bitRev_two_mul_add_one, hgs]
    have e1 : m * (2 * 2 ^ s) + (bitRev s t + 2 ^ s) = (2 * m + 1) * 2 ^ s + bitRev s t := by
      ring
    have e2 : 2 ^ (k - (s + 1)) * ((2 ^ s + g) * (2 * t + 1))
        = 2 * 2 ^ (k - (s + 1)) * (g * t) + g * 2 ^ (k - (s + 1))
          + (2 ^ (k - (s + 1)) * 2 ^ s * 2 * t + 2 ^ (k - (s + 1)) * 2 ^ s) := by ring
    rw [e1, e2, pow_add, pow_add, pow_add, hm1, hm2, pow_mul ω (2 ^ k) t, hone, one_pow, hω]
    ring

/-- One RN stage advances the snapshot invariant from `s` to `s + 1`. -/
lemma rnStage (ω : F) (k s : Nat) (hk : 1 ≤ k) (hs : s < k) (hω : ω ^ 2 ^ (k - 1) = -1)
    (u : List F) :
    rnGroups (natural_twiddles ω (2 ^ k)) (2 ^ s) (2 ^ (k - s)) (rnSnapshot ω k s u) 0 (2 ^ s)
      = Except.ok (rnSnapshot ω k (s + 1) u) := by
  have hposS : 0 < (2 : Nat) ^ s := Nat.pos_pow_of_pos _ (by norm_num)
  have hposS1 : 0 < (2 : Nat) ^ (s + 1) := Nat.pos_pow_of_pos _ (by norm_num)
  have hposH : 0 < (2 : Nat) ^ (k - (s + 1)) := Nat.pos_pow_of_pos _ (by norm_num)
  have hgs : 2 ^ (k - s) = 2 * 2 ^ (k - (s + 1)) := by
    have h1 : k - s = (k - (s + 1)) + 1 := by omega
    rw [h1, pow_succ]
    ring
  have h2s : (2 : Nat) ^ (s + 1) = 2 * 2 ^ s := by
    rw [pow_succ]
    ring
  have hhalf2k : 2 ^ s * 2 ^ (k - (s + 1)) = 2 ^ (k - 1) := by
    rw [← pow_add]
    congr 1
    omega
  have hfull2k : 2 ^ s * (2 * 2 ^ (k - (s + 1))) = 2 ^ k := by
    rw [← hgs, ← pow_add]
    congr 1
    omega
  have hnd2 : 2 ^ k / 2 = 2 ^ (k - 1) := by
    have e : (2 : Nat) ^ k = 2 ^ (k - 1) * 2 := by
      rw [← pow_succ]
      congr 1
      omega
    omega
  obtain ⟨out, hok, hlen, hcl, _⟩ :=
    rnGroups_char (natural_twiddles ω (2 ^ k)) (2 ^ s) (2 ^ (k - (s + 1))) hposS hposH
      (by rw [natural_twiddles_length, hnd2, hhalf2k])
      (2 ^ s) (rnSnapshot ω k s u) 0
      (by omega)
      (by rw [rnSnapshot_length]; exact le_of_eq hfull2k)
  rw [hgs, hok]
  congr 1
  apply list_ext_getD
  · rw [hlen, rnSnapshot_length, rnSnapshot_length]
  · intro p hp
    rw [hlen, rnSnapshot_length] at hp
    obtain ⟨g, e, m, hg, he, hm, rfl⟩ :
        ∃ g e m, g < 2 ^ s ∧ e < 2 ∧ m < 2 ^ (k - (s + 1))
          ∧ g + m * (2 * 2 ^ s) + e * 2 ^ s = p := by
      refine ⟨p % 2 ^ s, p / 2 ^ s % 2, p / 2 ^ s / 2, Nat.mod_lt _ hposS,
        Nat.mod_lt _ (by norm_num), ?_, ?_⟩
      · have h1 : p / 2 ^ s < 2 ^ (k - s) := by
          rw [Nat.div_lt_iff_lt_mul hposS]
          have e2 : 2 ^ (k - s) * 2 ^ s = 2 ^ k := by
            rw [← pow_add]
            congr 1
            omega
          rw [e2]
          exact hp
        rw [hgs] at h1
        omega
      · have h1 := Nat.div_add_mod p (2 ^ s)
        have h2 := Nat.div_add_mod (p / 2 ^ s) 2
        have e3 : p / 2 ^ s / 2 * (2 * 2 ^ s) = 2 ^ s * (2 * (p / 2 ^ s / 2)) := by ring
        have e4 : p / 2 ^ s % 2 * 2 ^ s = 2 ^ s * (p / 2 ^ s % 2) := by ring
        have e5 : 2 ^ s * (2 * (p / 2 ^ s / 2)) + 2 ^ s * (p / 2 ^ s % 2)
            = 2 ^ s * (p / 2 ^ s) := by
          rw [← Nat.mul_add, h2]
        omega
    have htwidx : (natural_twiddles ω (2 ^ k)).getD (g * 2 ^ (k - (s + 1))) 0
        = ω ^ (g * 2 ^ (k - (s + 1))) := by
      apply natural_twiddles_getD
      rw [hnd2]
      have h1 : (g + 1) * 2 ^ (k - (s + 1)) ≤ 2 ^ s * 2 ^ (k - (s + 1)) :=
        Nat.mul_le_mul_right _ (by omega)
      have e1 : (g + 1) * 2 ^ (k - (s + 1)) = g * 2 ^ (k - (s + 1)) + 2 ^ (k - (s + 1)) := by
        ring
      omega
    have hBe : (rnSnapshot ω k s u).getD (g + m * (2 * 2 ^ s)) 0
        = ∑ t in Finset.range (2 ^ s), u.getD (2 * m * 2 ^ s + bitRev s t) 0
            * ω ^ (2 ^ (k - s) * (g * t)) := by
      have e1 : g + m * (2 * 2 ^ s) = 2 * m * 2 ^ s + g := by ring
      have hub : 2 * m * 2 ^ s + g < 2 ^ k := by omega
      rw [e1, rnSnapshot_getD ω k s u _ hub, div_decompose _ (2 * m) g hposS hg,
        mod_decompose _ (2 * m) g hg]
    have hBo : (rnSnapshot ω k s u).getD (g + m * (2 * 2 ^ s) + 2 ^ s) 0
        = ∑ t in Finset.range (2 ^ s), u.getD ((2 * m + 1) * 2 ^ s + bitRev s t) 0
            * ω ^ (2 ^ (k - s) * (g * t)) := by
      have e1 : g + m * (2 * 2 ^ s) + 2 ^ s = (2 * m + 1) * 2 ^ s + g := by ring
      have hub : (2 * m + 1) * 2 ^ s + g < 2 ^ k := by
        have h1 : (m + 1) * (2 * 2 ^ s) ≤ 2 ^ (k - (s + 1)) * (2 * 2 ^ s) :=
          Nat.mul_le_mul_right _ (by omega)
        have e2 : (m + 1) * (2 * 2 ^ s) = m * (2 * 2 ^ s) + 2 * 2 ^ s := by ring
        have e3 : 2 ^ (k - (s + 1)) * (2 * 2 ^ s) = 2 ^ s * (2 * 2 ^ (k - (s + 1))) := by
          ring
        have e4 : (2 * m + 1) * 2 ^ s = m * (2 * 2 ^ s) + 2 ^ s := by ring
        omega
      rw [e1, rnSnapshot_getD ω k s u _ hub, div_decompose _ (2 * m + 1) g hposS hg,
        mod_decompose _ (2 * m + 1) g hg]
    have hub1 : m * (2 * 2 ^ s) + 2 * 2 ^ s ≤ 2 ^ k := by
      have h1 : (m + 1) * (2 * 2 ^ s) ≤ 2 ^ (k - (s + 1)) * (2 * 2 ^ s) :=
        Nat.mul_le_mul_right _ (by omega)
      have e2 : (m + 1) * (2 * 2 ^ s) = m * (2 * 2 ^ s) + 2 * 2 ^ s := by ring
      have e3 : 2 ^ (k - (s + 1)) * (2 * 2 ^ s) = 2 ^ s * (2 * 2 ^ (k - (s + 1))) := by ring
      omega
    rcases (by omega : e = 0 ∨ e = 1) with he0 | he1
    · subst he0
      have epos : g + m * (2 * 2 ^ s) + 0 * 2 ^ s = g + m * (2 * 2 ^ s) := by ring
      rw [epos]
      have hclE := (hcl g m (by omega) (by omega) hm).1
      rw [hclE, htwidx, hBe, hBo]
      have hB1 : (rnSnapshot ω k (s + 1) u).getD (g + m * (2 * 2 ^ s)) 0
          = ∑ t2 in Finset.range (2 ^ (s + 1)), u.getD (m * 2 ^ (s + 1) + bitRev (s + 1) t2) 0
              * ω ^ (2 ^ (k - (s + 1)) * (g * t2)) := by
        have e1 : g + m * (2 * 2 ^ s) = m * 2 ^ (s + 1) + g := by
          rw [h2s]
          ring
        have hgs1 : g < 2 ^ (s + 1) := by omega
        rw [e1, rnSnapshot_getD ω k (s + 1) u _ (by omega),
          div_decompose _ m g hposS1 hgs1, mod_decompose _ m g hgs1]
      rw [hB1]
      exact (rn_sum_even ω k s hs u g m).symm
    · subst he1
      have epos : g + m * (2 * 2 ^ s) + 1 * 2 ^ s = g + m * (2 * 2 ^ s) + 2 ^ s := by ring
      rw [epos]
      have hclO := (hcl g m (by omega) (by omega) hm).2
      rw [hclO, htwidx, hBe, hBo]
      have hB1 : (rnSnapshot ω k (s + 1) u).getD (g + m * (2 * 2 ^ s) + 2 ^ s) 0
          = ∑ t2 in Finset.range (2 ^ (s + 1)), u.getD (m * 2 ^ (s + 1) + bitRev (s + 1) t2) 0
              * ω ^ (2 ^ (k - (s + 1)) * ((2 ^ s + g) * t2)) := by
        have e1 : g + m * (2 * 2 ^ s) + 2 ^ s = m * 2 ^ (s + 1) + (2 ^ s + g) := by
          rw [h2s]
          ring
        have hgs1 : 2 ^ s + g < 2 ^ (s + 1) := by omega
        rw [e1, rnSnapshot_getD ω k (s + 1) u _ (by omega),
          div_decompose _ m _ hposS1 hgs1, mod_decompose _ m _ hgs1]
      rw [hB1]
      exact (rn_sum_odd ω k s hs hk hω u g m).symm

/-! Unfolding of the RN stage loop and the RN value chain. -/

lemma rnLoop_exit (tw input : List F) (gc gs fuel : Nat) (h : ¬ gc < input.length) :
    rnLoop tw input gc gs fuel = Except.ok input := by
  cases fuel with
  | zero => rfl
  | succ f => simp [rnLoop, h]

lemma rnLoop_step (tw input input2 : List F) (gc gs fuel : Nat)
    (h : gc < input.length) (hgr : rnGroups tw gc gs input 0 gc = Except.ok input2) :
    rnLoop tw input gc gs (fuel + 1) = rnLoop tw input2 (2 * gc) (gs / 2) fuel := by
  simp [rnLoop, h, hgr]

/-- Chaining the RN stages: `d` stages to go from the stage-`(k - d)` snapshot. -/
lemma rnLoop_snapshot (ω : F) (k : Nat) (hk : 1 ≤ k) (hω : ω ^ 2 ^ (k - 1) = -1)
    (u : List F) :
    ∀ d, d ≤ k → ∀ fuel, d ≤ fuel →
      rnLoop (natural_twiddles ω (2 ^ k)) (rnSnapshot ω k (k - d) u) (2 ^ (k - d)) (2 ^ d) fuel
        = Except.ok (rnSnapshot ω k k u) := by
  intro d
  induction d with
  | zero =>
      intro _ fuel _
      rw [Nat.sub_zero]
      exact rnLoop_exit _ _ _ _ _ (by rw [rnSnapshot_length]; omega)
  | succ d ih =>
      intro hd fuel hfuel
      cases fuel with
      | zero => omega
      | succ f =>
          have hstage := rnStage ω k (k - (d + 1)) hk (by omega) hω u
          have e1 : k - (k - (d + 1)) = d + 1 := by omega
          have e2 : k - (d + 1) + 1 = k - d := by omega
          rw [e1, e2] at hstage
          rw [rnLoop_step (natural_twiddles ω (2 ^ k)) _ _ _ _ f
            (by rw [rnSnapshot_length]; exact Nat.pow_lt_pow_right (by norm_num) (by omega))
            hstage]
          have e3 : 2 * 2 ^ (k - (d + 1)) = 2 ^ (k - d) := by
            have h1 : k - d = (k - (d + 1)) + 1 := by omega
            rw [h1, pow_succ]
            ring
          have e4 : 2 ^ (d + 1) / 2 = 2 ^ d := by
            rw [pow_succ]
            omega
          rw [e3, e4]
          exact ih (by omega) f (by omega)

/-- Initial RN snapshot: before any stage the buffer is the input itself. -/
lemma rnSnapshot_zero (ω : F) (k : Nat) (u : List F) (hu : u.length = 2 ^ k) :
    rnSnapshot ω k 0 u = u := by
  apply list_ext_getD
  · rw [rnSnapshot_length, hu]
  · intro p hp
    rw [rnSnapshot_length] at hp
    rw [rnSnapshot_getD ω k 0 u p hp, pow_zero, Finset.sum_range_one]
    simp [bitRev]

/-- Final RN snapshot: after all `k` stages, position `r` holds the sum
`Σ_t u[bitRev k t] * ω^(r*t)`. -/
lemma rnSnapshot_final (ω : F) (k : Nat) (u : List F) (r : Nat) (hr : r < 2 ^ k) :
    (rnSnapshot ω k k u).getD r 0
      = ∑ t in Finset.range (2 ^ k), u.getD (bitRev k t) 0 * ω ^ (r * t) := by
  rw [rnSnapshot_getD ω k k u r hr]
  refine Finset.sum_congr rfl fun t _ => ?_
  rw [Nat.div_eq_of_lt hr, Nat.sub_self, pow_zero, Nat.mod_eq_of_lt hr]
  simp

/-- The RN transform on a power-of-two input with natural twiddles returns
the final RN snapshot, with no error. -/
lemma rn_fft_value (ω : F) (k : Nat) (u : List F) (hk : 1 ≤ k)
    (hω : ω ^ 2 ^ (k - 1) = -1) (hu : u.length = 2 ^ k) :
    in_place_rn_2radix_fft u (natural_twiddles ω (2 ^ k))
      = Except.ok (rnSnapshot ω k k u) := by
  rw [in_place_rn_2radix_fft, hu]
  have h0 := rnLoop_snapshot ω k hk hω u k (le_refl k) (2 ^ k)
    (Nat.le_of_lt (Nat.lt_two_pow k))
  rw [Nat.sub_self, pow_zero, rnSnapshot_zero ω k u hu] at h0
  exact h0

lemma bit_reverse_permute_length (k : Nat) (v : List F) :
    (bit_reverse_permute k v).length = v.length := by
  rw [bit_reverse_permute, List.length_map, List.length_range]

lemma bit_reverse_permute_getD (k : Nat) (v : List F) (i : Nat) (hi : i < v.length) :
    (bit_reverse_permute k v).getD i 0 = v.getD (bitRev k i) 0 := by
  rw [bit_reverse_permute, getD_map_range, if_pos hi]

/-- The final RN snapshot of a bit-reversed input is exactly the oracle. -/
lemma rn_final_of_bitrev_input (ω : F) (k : Nat) (v : List F) (hk : 1 ≤ k)
    (hω : ω ^ 2 ^ (k - 1) = -1) (hv : v.length = 2 ^ k) :
    rnSnapshot ω k k (bit_reverse_permute k v) = dft ω v := by
  have hn : ω ^ 2 ^ k = 1 := pow_two_k_eq_one ω k hk hω
  apply list_ext_getD
  · rw [rnSnapshot_length, dft_length, hv]
  · intro r hr
    rw [rnSnapshot_length] at hr
    rw [rnSnapshot_final ω k _ r hr, dft_getD ω v r (by omega), hv]
    refine Finset.sum_congr rfl fun t ht => ?_
    have htlt : t < 2 ^ k := Finset.mem_range.mp ht
    rw [bit_reverse_permute_getD k v (bitRev k t) (by rw [hv]; exact bitRev_lt k t),
      bitRev_bitRev k t htlt, pow_mod_of_pow_eq_one ω (2 ^ k) hn (r * t)]

/-! In-bounds execution for arbitrary twiddle values of the contract length. -/

lemma pow_div_two (k : Nat) (hk : 1 ≤ k) : 2 ^ k / 2 = 2 ^ (k - 1) := by
  have e : (2 : Nat) ^ k = 2 ^ (k - 1) * 2 := by
    rw [← pow_succ]
    congr 1
    omega
  omega

lemma nrLoop_ok_aux (tw : List F) (k : Nat) (htw : 2 ^ k / 2 ≤ tw.length) :
    ∀ d, d ≤ k → ∀ fuel, d ≤ fuel → ∀ input : List F, input.length = 2 ^ k →
      ∃ out, nrLoop tw input (2 ^ (k - d)) (2 ^ d) fuel = Except.ok out
        ∧ out.length = 2 ^ k := by
  intro d
  induction d with
  | zero =>
      intro _ fuel _ input hlen
      rw [Nat.sub_zero]
      exact ⟨input, nrLoop_exit _ _ _ _ _ (by omega), hlen⟩
  | succ d ih =>
      intro hd fuel hfuel input hlen
      cases fuel with
      | zero => omega
      | succ f =>
          have hk1 : 1 ≤ k := by omega
          have hhd2 : 2 ^ k / 2 = 2 ^ (k - 1) := pow_div_two k hk1
          have e1 : (2 : Nat) ^ (d + 1) = 2 * 2 ^ d := by
            rw [pow_succ]
            ring
          have hcmul : 2 ^ (k - (d + 1)) * (2 * 2 ^ d) = 2 ^ k := by
            rw [← e1, ← pow_add]
            congr 1
            omega
          have htwle : 2 ^ (k - (d + 1)) ≤ 2 ^ (k - 1) :=
            Nat.pow_le_pow_right (by norm_num) (by omega)
          have e0 : (0 + 2 ^ (k - (d + 1))) * (2 * 2 ^ d)
              = 2 ^ (k - (d + 1)) * (2 * 2 ^ d) := by ring
          obtain ⟨mid, hmid, hmidlen, _, _⟩ :=
            nrGroups_char tw (2 ^ d) (Nat.pos_pow_of_pos _ (by norm_num)) (2 ^ (k - (d + 1)))
              input 0 (by omega) (by omega)
          rw [← e1] at hmid
          rw [nrLoop_step tw input mid _ _ f
            (by rw [hlen]; exact Nat.pow_lt_pow_right (by norm_num) (by omega)) hmid]
          have e3 : 2 * 2 ^ (k - (d + 1)) = 2 ^ (k - d) := by
            have h1 : k - d = (k - (d + 1)) + 1 := by omega
            rw [h1, pow_succ]
            ring
          have e4 : 2 ^ (d + 1) / 2 = 2 ^ d := by
            rw [pow_succ]
            omega
          rw [e3, e4]
          exact ih (by omega) f (by omega) mid (by omega)

lemma rnLoop_ok_aux (tw : List F) (k : Nat) (htw : 2 ^ k / 2 ≤ tw.length) :
    ∀ d, d ≤ k → ∀ fuel, d ≤ fuel → ∀ input : List F, input.length = 2 ^ k →
      ∃ out, rnLoop tw input (2 ^ (k - d)) (2 ^ d) fuel = Except.ok out
        ∧ out.length = 2 ^ k := by
  intro d
  induction d with
  | zero =>
      intro _ fuel _ input hlen
      rw [Nat.sub_zero]
      exact ⟨input, rnLoop_exit _ _ _ _ _ (by omega), hlen⟩
  | succ d ih =>
      intro hd fuel hfuel input hlen
      cases fuel with
      | zero => omega
      | succ f =>
          have hk1 : 1 ≤ k := by omega
          have hhd2 : 2 ^ k / 2 = 2 ^ (k - 1) := pow_div_two k hk1
          have e1 : (2 : Nat) ^ (d + 1) = 2 * 2 ^ d := by
            rw [pow_succ]
            ring
          have hcmul : 2 ^ (k - (d + 1)) * (2 * 2 ^ d) = 2 ^ k := by
            rw [← e1, ← pow_add]
            congr 1
            omega
          have hgchalf : 2 ^ (k - (d + 1)) * 2 ^ d = 2 ^ (k - 1) := by
            rw [← pow_add]
            congr 1
            omega
          have e0 : (0 + 2 ^ (k - (d + 1))) * (2 * 2 ^ d)
              = 2 ^ (k - (d + 1)) * (2 * 2 ^ d) := by ring
          obtain ⟨mid, hmid, hmidlen, _, _⟩ :=
            rnGroups_char tw (2 ^ (k - (d + 1))) (2 ^ d)
              (Nat.pos_pow_of_pos _ (by norm_num)) (Nat.pos_pow_of_pos _ (by norm_num))
              (by omega) (2 ^ (k - (d + 1))) input 0 (by omega) (by omega)
          rw [← e1] at hmid
          rw [rnLoop_step tw input mid _ _ f
            (by rw [hlen]; exact Nat.pow_lt_pow_right (by norm_num) (by omega)) hmid]
          have e3 : 2 * 2 ^ (k - (d + 1)) = 2 ^ (k - d) := by
            have h1 : k - d = (k - (d + 1)) + 1 := by omega
            rw [h1, pow_succ]
            ring
          have e4 : 2 ^ (d + 1) / 2 = 2 ^ d := by
            rw [pow_succ]
            omega
          rw [e3, e4]
          exact ih (by omega) f (by omega) mid (by omega)

/-- Under the length preconditions, the NR transform signals no error and
preserves the buffer length, whatever the twiddle values are. -/
lemma nr_fft_ok (tw v : List F) (k : Nat) (hv : v.length = 2 ^ k)
    (htw : tw.length = 2 ^ k / 2) :
    ∃ out, in_place_nr_2radix_fft v tw = Except.ok out ∧ out.length = v.length := by
  have h := nrLoop_ok_aux tw k (by omega) k (le_refl k) (2 ^ k)
    (Nat.le_of_lt (Nat.lt_two_pow k)) v hv
  rw [Nat.sub_self, pow_zero] at h
  obtain ⟨out, hout, hlen⟩ := h
  rw [in_place_nr_2radix_fft, hv]
  exact ⟨out, hout, by omega⟩

/-- Under the length preconditions, the RN transform signals no error and
preserves the buffer length, whatever the twiddle values are. -/
lemma rn_fft_ok (tw v : List F) (k : Nat) (hv : v.length = 2 ^ k)
    (htw : tw.length = 2 ^ k / 2) :
    ∃ out, in_place_rn_2radix_fft v tw = Except.ok out ∧ out.length = v.length := by
  have h := rnLoop_ok_aux tw k (by omega) k (le_refl k) (2 ^ k)
    (Nat.le_of_lt (Nat.lt_two_pow k)) v hv
  rw [Nat.sub_self, pow_zero] at h
  obtain ⟨out, hout, hlen⟩ := h
  rw [in_place_rn_2radix_fft, hv]
  exact ⟨out, hout, by omega⟩

lemma nrLoop_step_error (tw input : List F) (st : List F) (gc gs fuel : Nat)
    (h : gc < input.length) (hgr : nrGroups tw gs input 0 gc = Except.error st) :
    nrLoop tw input gc gs (fuel + 1) = Except.error st := by
  simp [nrLoop, h, hgr]

lemma rnLoop_step_error (tw input : List F) (st : List F) (gc gs fuel : Nat)
    (h : gc < input.length) (hgr : rnGroups tw gc gs input 0 gc = Except.error st) :
    rnLoop tw input gc gs (fuel + 1) = Except.error st := by
  simp [rnLoop, h, hgr]

/-! The claims. -/

/-- Claim C1: for every `n = 2^k` with `k ∈ [1, 8]` and every sequence `v` of
`n` nonzero field elements, running the NR transform on `v` with bit-reversed
twiddles of length `n/2` and then applying the bit-reversal permutation
yields exactly the naive DFT of `v`. -/
theorem nr_fft_then_bitrev_eq_dft (k : Nat) (hk1 : 1 ≤ k) (hk8 : k ≤ 8) (ω : F)
    (hω : is_primitive_root ω (2 ^ k)) (v : List F) (hv : v.length = 2 ^ k)
    (hnz : ∀ x ∈ v, x ≠ 0) :
    ∃ out, in_place_nr_2radix_fft v (bitrev_twiddles ω k) = Except.ok out
      ∧ bit_reverse_permute k out = dft ω v := by
  have hhalf : ω ^ 2 ^ (k - 1) = -1 := prim_root_pow_half ω k hk1 hω
  exact ⟨nrSnapshot ω k k v, nr_fft_value ω k v hk1 hhalf hv,
    nr_final_bitrev ω k v hk1 hhalf hv⟩

/-- Claim C2: for every `n = 2^k` with `k ∈ [1, 8]` and every sequence `v` of
`n` nonzero field elements, applying the bit-reversal permutation to `v` and
then running the RN transform with naturally ordered twiddles of length `n/2`
yields exactly the naive DFT of `v`. -/
theorem rn_fft_of_bitrev_eq_dft (k : Nat) (hk1 : 1 ≤ k) (hk8 : k ≤ 8) (ω : F)
    (hω : is_primitive_root ω (2 ^ k)) (v : List F) (hv : v.length = 2 ^ k)
    (hnz : ∀ x ∈ v, x ≠ 0) :
    in_place_rn_2radix_fft (bit_reverse_permute k v) (natural_twiddles ω (2 ^ k))
      = Except.ok (dft ω v) := by
  have hhalf : ω ^ 2 ^ (k - 1) = -1 := prim_root_pow_half ω k hk1 hω
  have hlen : (bit_reverse_permute k v).length = 2 ^ k := by
    rw [bit_reverse_permute_length, hv]
  rw [rn_fft_value ω k _ hk1 hhalf hlen, rn_final_of_bitrev_input ω k v hk1 hhalf hv]

/-- Claim C4: for every input of power-of-two length, in both transforms the
loop variables satisfy `group_count * group_size = n` at every stage
boundary, with `group_count = 2^s` doubling and `group_size = n / 2^s`
halving each stage, and the stage loop runs exactly while `group_count < n`,
terminating when `group_count = n` (i.e. `group_size = 1`), after `log2 n`
stages. -/
theorem loop_variable_invariants (k : Nat) :
    (∀ s, s ≤ k → 2 ^ s * (2 ^ k / 2 ^ s) = 2 ^ k) ∧
    Nat.log 2 (2 ^ k) = k ∧
    (∀ (tw input mid : List F) (s fuel : Nat), s < k → input.length = 2 ^ k →
      nrGroups tw (2 ^ (k - s)) input 0 (2 ^ s) = Except.ok mid →
      nrLoop tw input (2 ^ s) (2 ^ (k - s)) (fuel + 1)
        = nrLoop tw mid (2 ^ (s + 1)) (2 ^ (k - (s + 1))) fuel) ∧
    (∀ (tw input st : List F) (s fuel : Nat), s < k → input.length = 2 ^ k →
      nrGroups tw (2 ^ (k - s)) input 0 (2 ^ s) = Except.error st →
      nrLoop tw input (2 ^ s) (2 ^ (k - s)) (fuel + 1) = Except.error st) ∧
    (∀ (tw input : List F) (gs fuel : Nat), input.length = 2 ^ k →
      nrLoop tw input (2 ^ k) gs fuel = Except.ok input) ∧
    (∀ (tw input mid : List F) (s fuel : Nat), s < k → input.length = 2 ^ k →
      rnGroups tw (2 ^ s) (2 ^ (k - s)) input 0 (2 ^ s) = Except.ok mid →
      rnLoop tw input (2 ^ s) (2 ^ (k - s)) (fuel + 1)
        = rnLoop tw mid (2 ^ (s + 1)) (2 ^ (k - (s + 1))) fuel) ∧
    (∀ (tw input st : List F) (s fuel : Nat), s < k → input.length = 2 ^ k →
      rnGroups tw (2 ^ s) (2 ^ (k - s)) input 0 (2 ^ s) = Except.error st →
      rnLoop tw input (2 ^ s) (2 ^ (k - s)) (fuel + 1) = Except.error st) ∧
    (∀ (tw input : List F) (gs fuel : Nat), input.length = 2 ^ k →
      rnLoop tw input (2 ^ k) gs fuel = Except.ok input) := by
  have hstep : ∀ s, s < k →
      (2 * 2 ^ s = 2 ^ (s + 1) ∧ 2 ^ (k - s) / 2 = 2 ^ (k - (s + 1))) := by
    intro s hs
    constructor
    · rw [pow_succ]
      ring
    · have h1 : k - s = (k - (s + 1)) + 1 := by omega
      rw [h1, pow_succ]
      omega
  refine ⟨?_, ?_, ?_, ?_, ?_, ?_, ?_, ?_⟩
  · intro s hsk
    rw [Nat.pow_div hsk (by norm_num), ← pow_add]
    congr 1
    omega
  · exact Nat.log_pow (by norm_num) k
  · intro tw input mid s fuel hs hlen hgr
    rw [nrLoop_step tw input mid _ _ fuel
      (by rw [hlen]; exact Nat.pow_lt_pow_right (by norm_num) hs) hgr,
      (hstep s hs).1, (hstep s hs).2]
  · intro tw input st s fuel hs hlen hgr
    exact nrLoop_step_error tw input st _ _ fuel
      (by rw [hlen]; exact Nat.pow_lt_pow_right (by norm_num) hs) hgr
  · intro tw input gs fuel hlen
    exact nrLoop_exit tw input _ gs fuel (by omega)
  · intro tw input mid s fuel hs hlen hgr
    rw [rnLoop_step tw input mid _ _ fuel
      (by rw [hlen]; exact Nat.pow_lt_pow_right (by norm_num) hs) hgr,
      (hstep s hs).1, (hstep s hs).2]
  · intro tw input st s fuel hs hlen hgr
    exact rnLoop_step_error tw input st _ _ fuel
      (by rw [hlen]; exact Nat.pow_lt_pow_right (by norm_num) hs) hgr
  · intro tw input gs fuel hlen
    exact rnLoop_exit tw input _ gs fuel (by omega)

/-- Claim C5: the reference DFT oracle's output at index `i` equals the
evaluation of the polynomial with coefficient vector `v` at `ω^i`, the
`i`-th natural-order power of the primitive root. -/
theorem dft_eq_polynomial_evaluate (k : Nat) (hk1 : 1 ≤ k) (hk8 : k ≤ 8) (ω : F)
    (hω : is_primitive_root ω (2 ^ k)) (v : List F) (hv : v.length = 2 ^ k)
    (hnz : ∀ x ∈ v, x ≠ 0) (i : Nat) (hi : i < 2 ^ k) :
    (dft ω v).getD i 0 = polynomial_evaluate v (ω ^ i) := by
  rw [dft_getD ω v i (by omega), polynomial_evaluate]
  refine Finset.sum_congr rfl fun col _ => ?_
  rw [hv, pow_mod_of_pow_eq_one ω (2 ^ k) hω.1 (i * col), ← pow_mul]

/-- Claim C6: on a single-element input with empty twiddles, both transforms
return the input unchanged (zero stages execute) and without error. -/
theorem single_element_unchanged (a : F) :
    in_place_nr_2radix_fft [a] [] = Except.ok [a]
      ∧ in_place_rn_2radix_fft [a] [] = Except.ok [a] :=
  ⟨rfl, rfl⟩

/-- Claim C7: both transforms are deterministic: equal inputs and equal
twiddles produce equal outputs. -/
theorem transforms_deterministic (v1 v2 t1 t2 : List F) (hv : v1 = v2) (ht : t1 = t2) :
    in_place_nr_2radix_fft v1 t1 = in_place_nr_2radix_fft v2 t2
      ∧ in_place_rn_2radix_fft v1 t1 = in_place_rn_2radix_fft v2 t2 := by
  subst hv
  subst ht
  exact ⟨rfl, rfl⟩

/-- Claim C8: under the length preconditions (`n = 2^k`, twiddle length
`n / 2`), every index used by both transforms is in bounds: the out-of-bounds
error branch of the embedding is unreachable and both transforms return
normally. -/
theorem all_accesses_in_bounds (k : Nat) (v tw : List F) (hv : v.length = 2 ^ k)
    (htw : tw.length = 2 ^ k / 2) :
    (∃ out, in_place_nr_2radix_fft v tw = Except.ok out)
      ∧ (∃ out, in_place_rn_2radix_fft v tw = Except.ok out) := by
  obtain ⟨o1, h1, _⟩ := nr_fft_ok tw v k hv htw
  obtain ⟨o2, h2, _⟩ := rn_fft_ok tw v k hv htw
  exact ⟨⟨o1, h1⟩, ⟨o2, h2⟩⟩

/-- Claim C9: on the empty input both transforms return immediately with no
error and no mutation, whatever twiddle sequence is supplied. -/
theorem empty_input_returns_ok (tw : List F) :
    in_place_nr_2radix_fft [] tw = Except.ok []
      ∧ in_place_rn_2radix_fft [] tw = Except.ok [] :=
  ⟨rfl, rfl⟩

/-- Claim C10: under the preconditions, a successful run of either transform
returns a buffer of the same length as the input; the twiddle sequence is a
read-only argument of both the source (`&[FieldElement<F>]`) and the
embedding and is never written. -/
theorem buffer_length_preserved (k : Nat) (v tw : List F) (hv : v.length = 2 ^ k)
    (htw : tw.length = 2 ^ k / 2) :
    (∀ out, in_place_nr_2radix_fft v tw = Except.ok out → out.length = v.length)
      ∧ (∀ out, in_place_rn_2radix_fft v tw = Except.ok out → out.length = v.length) := by
  constructor
  · intro out hout
    obtain ⟨o, ho, hl⟩ := nr_fft_ok tw v k hv htw
    rw [ho] at hout
    injection hout with h
    rw [← h]
    exact hl
  · intro out hout
    obtain ⟨o, ho, hl⟩ := rn_fft_ok tw v k hv htw
    rw [ho] at hout
    injection hout with h
    rw [← h]
    exact hl

/-- Claim C3 amended: the transforms perform no precondition validation. A
zero-length input (a precondition failure per the spec) is not reported as an
error: both transforms return success. A non-power-of-two length is not
rejected either: the NR transform on a length-3 input with one twiddle first
mutates two input elements and only then hits the out-of-bounds twiddle
access, so the caller observes a partially transformed buffer. -/
theorem no_precondition_validation :
    (∀ tw : List F, in_place_nr_2radix_fft [] tw = Except.ok []
      ∧ in_place_rn_2radix_fft [] tw = Except.ok []) ∧
    (∀ a b c w : F, in_place_nr_2radix_fft [a, b, c] [w]
      = Except.error [a + w * b, a - w * b, c]) := by
  refine ⟨fun _ => ⟨rfl, rfl⟩, fun a b c w => ?_⟩
  simp only [in_place_nr_2radix_fft, List.length_cons, List.length_nil]
  rfl

end LambdaworksFft

namespace LambdaworksFftWitness

open LambdaworksFft

instance fact_prime_17 : Fact (Nat.Prime 17) := ⟨by norm_num⟩

/-- Claim C3 counterexample: on the concrete input `[1, 2, 3]` over `ZMod 17`
with the single twiddle `1`, the NR transform raises its error only after
mutating the first two elements (the buffer at the panic is `[3, 16, 3]`,
not the original `[1, 2, 3]`), and the zero-length precondition failure is
never reported at all. -/
theorem nr_error_after_mutation :
    in_place_nr_2radix_fft [(1 : ZMod 17), 2, 3] [1] = Except.error [3, 16, 3]
      ∧ ([3, 16, 3] : List (ZMod 17)) ≠ [1, 2, 3]
      ∧ in_place_nr_2radix_fft ([] : List (ZMod 17)) [] = Except.ok [] := by
  refine ⟨?_, by decide, rfl⟩
  simp only [in_place_nr_2radix_fft, List.length_cons, List.length_nil]
  rfl

/-- Witness for claim C1 at `k = 1`, `F = ZMod 17`, `ω = 16`, `v = [1, 2]`. -/
theorem nr_fft_then_bitrev_eq_dft_witness :
    ∃ out, in_place_nr_2radix_fft [(1 : ZMod 17), 2] (bitrev_twiddles 16 1) = Except.ok out
      ∧ bit_reverse_permute 1 out = dft 16 [(1 : ZMod 17), 2] :=
  nr_fft_then_bitrev_eq_dft 1 (by norm_num) (by norm_num) 16 ⟨by decide, by decide⟩
    [1, 2] rfl (by decide)

/-- Witness for claim C2 at `k = 1`, `F = ZMod 17`, `ω = 16`, `v = [1, 2]`. -/
theorem rn_fft_of_bitrev_eq_dft_witness :
    in_place_rn_2radix_fft (bit_reverse_permute 1 [(1 : ZMod 17), 2])
        (natural_twiddles 16 (2 ^ 1))
      = Except.ok (dft 16 [(1 : ZMod 17), 2]) :=
  rn_fft_of_bitrev_eq_dft 1 (by norm_num) (by norm_num) 16 ⟨by decide, by decide⟩
    [1, 2] rfl (by decide)

/-- Witness for claim C5 at `k = 1`, `F = ZMod 17`, `ω = 16`, `v = [1, 2]`,
`i = 1`. -/
theorem dft_eq_polynomial_evaluate_witness :
    (dft (16 : ZMod 17) [1, 2]).getD 1 0 = polynomial_evaluate [(1 : ZMod 17), 2] (16 ^ 1) :=
  dft_eq_polynomial_evaluate 1 (by norm_num) (by norm_num) 16 ⟨by decide, by decide⟩
    [1, 2] rfl (by decide) 1 (by norm_num)

/-- Witness for claim C7 on concrete equal inputs over `ZMod 17`. -/
theorem transforms_deterministic_witness :
    in_place_nr_2radix_fft [(1 : ZMod 17), 2] [3] = in_place_nr_2radix_fft [(1 : ZMod 17), 2] [3]
      ∧ in_place_rn_2radix_fft [(1 : ZMod 17), 2] [3]
        = in_place_rn_2radix_fft [(1 : ZMod 17), 2] [3] :=
  transforms_deterministic [(1 : ZMod 17), 2] [1, 2] [3] [3] rfl rfl

/-- Witness for claim C8 at `k = 1` over `ZMod 17`. -/
theorem all_accesses_in_bounds_witness :
    (∃ out, in_place_nr_2radix_fft [(1 : ZMod 17), 2] [5] = Except.ok out)
      ∧ ∃ out, in_place_rn_2radix_fft [(1 : ZMod 17), 2] [5] = Except.ok out :=
  all_accesses_in_bounds 1 [1, 2] [5] rfl rfl

/-- Witness for claim C10 at `k = 1` over `ZMod 17`. -/
theorem buffer_length_preserved_witness :
    (∀ out, in_place_nr_2radix_fft [(1 : ZMod 17), 2] [5] = Except.ok out
        → out.length = ([(1 : ZMod 17), 2]).length)
      ∧ ∀ out, in_place_rn_2radix_fft [(1 : ZMod 17), 2] [5] = Except.ok out
        → out.length = ([(1 : ZMod 17), 2]).length :=
  buffer_length_preserved 1 [1, 2] [5] rfl rfl

end LambdaworksFftWitness
